import Mathlib

/-!
Verification of the Lab3-LFTC lexical analyzer (hashtable.py,
symboltables.py, lexicalanalyzer.py) against its specification.

The Python code is embedded shallowly:
  * a bucket chain of `Node` objects becomes a `List (String × V)`;
  * `HashTable` becomes a structure holding the bucket list together with
    the (process-wide, seed-dependent) string hash function it was built
    with — Python's `hash` is modelled as an arbitrary `String → Nat`;
  * the analyzer's mutable state becomes a structure threaded through
    explicit folds over lines and tokens.
-/

namespace Lab3

/-- ASCII lower-casing, modelling Python `str.lower` on the ASCII
tokens this analyzer compares against its reserved words. -/
def lowerStr (s : String) : String := String.mk (s.data.map Char.toLower)

/-! ## Chains: the singly linked `Node` lists of hashtable.py -/

/-- One collision chain: the linked list of `Node(key, value)` hanging
off a bucket, in link order. -/
abbrev Chain (V : Type) := List (String × V)

/-- `HashTable.put` restricted to one chain: overwrite in place on an
equal key, otherwise append a fresh node at the tail
(hashtable.py lines 20-29; the empty case is line 18-19). -/
def putChain {V : Type} (k : String) (v : V) : Chain V → Chain V
  | [] => [(k, v)]
  | (q, w) :: rest => if q = k then (q, v) :: rest else (q, w) :: putChain k v rest

/-- `HashTable.get` restricted to one chain: first node with an equal
key wins (hashtable.py lines 33-38). -/
def getChain {V : Type} (k : String) : Chain V → Option V
  | [] => none
  | (q, w) :: rest => if q = k then some w else getChain k rest

/-- `HashTable.remove` restricted to one chain: unlink the first node
with an equal key, no-op when absent (hashtable.py lines 42-53). -/
def removeChain {V : Type} (k : String) : Chain V → Chain V
  | [] => []
  | (q, w) :: rest => if q = k then rest else (q, w) :: removeChain k rest

/-- The keys stored in a chain, in chain order. -/
def chainKeys {V : Type} (c : Chain V) : List String := c.map Prod.fst

/-! ## The hash table of hashtable.py -/

/-- `HashTable.__init__` fixes `size = 2` and two empty buckets; the
hash function records which process-wide Python `hash` the table was
built under. -/
structure HashTable (V : Type) where
  hashFn : String → Nat
  size : Nat
  table : List (Chain V)

namespace HashTable

variable {V : Type}

/-- A fresh `HashTable()` under hash function `h`. -/
def init (h : String → Nat) : HashTable V := ⟨h, 2, [[], []]⟩

/-- `_hash(key)`: `hash(key) % self.size` (hashtable.py line 14). -/
def hashIdx (t : HashTable V) (k : String) : Nat := t.hashFn k % t.size

/-- The chain currently stored in bucket `i` (empty for an empty or
out-of-range bucket). -/
def bucket (t : HashTable V) (i : Nat) : Chain V := t.table.getD i []

/-- `put(key, value)` (hashtable.py lines 16-29). -/
def put (t : HashTable V) (k : String) (v : V) : HashTable V :=
  { t with table := t.table.set (t.hashIdx k) (putChain k v (t.bucket (t.hashIdx k))) }

/-- `get(key)` (hashtable.py lines 31-38); `none` is Python's `None`. -/
def get (t : HashTable V) (k : String) : Option V :=
  getChain k (t.bucket (t.hashIdx k))

/-- `remove(key)` (hashtable.py lines 40-53). -/
def remove (t : HashTable V) (k : String) : HashTable V :=
  { t with table := t.table.set (t.hashIdx k) (removeChain k (t.bucket (t.hashIdx k))) }

/-- All `(key, value)` entries of the table, bucket index ascending and
chain order inside each bucket — the diagnostic dump order of
`__str__` (hashtable.py lines 55-63). -/
def entries (t : HashTable V) : List (String × V) := t.table.flatten

/-- All keys of the table in dump order. -/
def keys (t : HashTable V) : List String := (entries t).map Prod.fst

/-- Number of distinct keys currently stored. -/
def distinctKeyCount (t : HashTable V) : Nat := (keys t).dedup.length

/-- Well-formedness of a table state: the bucket array has the declared
positive size and every stored key sits in (only) the bucket its hash
selects, with no duplicate keys inside a bucket.  `HashTable.__init__`
establishes this and `put`/`remove` preserve it. -/
structure WF (t : HashTable V) : Prop where
  size_pos : 0 < t.size
  len_eq : t.table.length = t.size
  nodup : ∀ i, (chainKeys (t.bucket i)).Nodup
  placed : ∀ i, i < t.size → ∀ p ∈ t.bucket i, t.hashFn p.1 % t.size = i

end HashTable

/-- A table together with the hash function it may be built from by
`put`/`remove` calls only — the states of hashtable.py reachable from
`HashTable()` in one process. -/
inductive Reachable {V : Type} (h : String → Nat) : HashTable V → Prop where
  | init : Reachable h (HashTable.init h)
  | put (t : HashTable V) (k : String) (v : V) : Reachable h t → Reachable h (t.put k v)
  | rem (t : HashTable V) (k : String) : Reachable h t → Reachable h (t.remove k)

/-! ## The facades of symboltables.py -/

/-- `SymbolTableIdentifiers` (symboltables.py lines 4-15): a thin
wrapper over one `HashTable` whose values are the integer positions. -/
structure SymbolTableIdentifiers where
  symbol_table : HashTable Nat

/-- `SymbolTableIdentifiers.__init__`. -/
def SymbolTableIdentifiers.init (h : String → Nat) : SymbolTableIdentifiers :=
  ⟨HashTable.init h⟩

/-- `add_identifier`: a raw put. -/
def SymbolTableIdentifiers.add_identifier (st : SymbolTableIdentifiers)
    (identifier : String) (value : Nat) : SymbolTableIdentifiers :=
  ⟨st.symbol_table.put identifier value⟩

/-- `get_identifier_value`: a raw lookup. -/
def SymbolTableIdentifiers.get_identifier_value (st : SymbolTableIdentifiers)
    (identifier : String) : Option Nat :=
  st.symbol_table.get identifier

/-- `remove_identifier`: a raw removal. -/
def SymbolTableIdentifiers.remove_identifier (st : SymbolTableIdentifiers)
    (identifier : String) : SymbolTableIdentifiers :=
  ⟨st.symbol_table.remove identifier⟩

/-- `SymbolTableConstants` (symboltables.py lines 18-29). -/
structure SymbolTableConstants where
  symbol_table : HashTable Nat

/-- `SymbolTableConstants.__init__`. -/
def SymbolTableConstants.init (h : String → Nat) : SymbolTableConstants :=
  ⟨HashTable.init h⟩

/-- `add_constant`: a raw put. -/
def SymbolTableConstants.add_constant (st : SymbolTableConstants)
    (identifier : String) (value : Nat) : SymbolTableConstants :=
  ⟨st.symbol_table.put identifier value⟩

/-- `get_constant_value`: a raw lookup. -/
def SymbolTableConstants.get_constant_value (st : SymbolTableConstants)
    (identifier : String) : Option Nat :=
  st.symbol_table.get identifier

/-- `remove_constant`: a raw removal. -/
def SymbolTableConstants.remove_constant (st : SymbolTableConstants)
    (identifier : String) : SymbolTableConstants :=
  ⟨st.symbol_table.remove identifier⟩

/-! ## Vocabulary and token shapes of lexicalanalyzer.py -/

/-- The reserved-word set (lexicalanalyzer.py lines 24-27). -/
def reserved_words : List String :=
  ["int", "string", "array", "for", "if", "else", "while", "input", "print", "let", "return"]

/-- The operator set (lexicalanalyzer.py lines 29-32). -/
def operators : List String :=
  ["+", "-", "*", "/", "%", "=", "<", "<=", "==", "=>", ">"]

/-- The nine separator characters (lexicalanalyzer.py lines 34-36); the
two `Char.ofNat` entries are the opening and closing curly braces. -/
def sepChars : List Char :=
  ['(', ')', '[', ']', Char.ofNat 123, Char.ofNat 125, '?', ',', ';']

/-- The separator set, as the one-character strings the classifier
compares whole tokens against. -/
def separators : List String := sepChars.map (fun c => String.mk [c])

/-- The shape `[a-zA-Z][a-zA-Z0-9]*` of `identifier_regex`
(lexicalanalyzer.py line 38); `Char.isAlpha`/`Char.isDigit` are the
ASCII classes the regex names. -/
def isIdentShape (s : String) : Bool :=
  match s.data with
  | [] => false
  | c :: cs => c.isAlpha && cs.all (fun d => d.isAlpha || d.isDigit)

/-- `is_identifier` (lexicalanalyzer.py lines 70-82): reserved words
are rejected first, then the identifier shape is checked. -/
def is_identifier (token : String) : Bool :=
  if lowerStr token ∈ reserved_words then false else isIdentShape token

/-- The shape `^0$|^[+-]?[1-9][0-9]*$` of `integer_regex`
(lexicalanalyzer.py line 39). -/
def isIntShape (s : String) : Bool :=
  s == "0" ||
    (match s.data with
     | [] => false
     | c :: cs =>
       match (if c == '+' || c == '-' then cs else c :: cs) with
       | [] => false
       | d :: rest => d.isDigit && d != '0' && rest.all Char.isDigit)

/-- The character class `[a-zA-Z0-9 ]` allowed inside a string
constant (lexicalanalyzer.py line 40). -/
def isStrConstChar (c : Char) : Bool := c.isAlpha || c.isDigit || c == ' '

/-- The shape of `string_regex`: a double quote, any number of
`isStrConstChar` characters, a closing double quote. -/
def isStrShape (s : String) : Bool :=
  match s.data with
  | [] => false
  | c :: rest =>
    c == '"' && !rest.isEmpty && rest.getLastD ' ' == '"' && rest.dropLast.all isStrConstChar

/-- `is_constant` (lexicalanalyzer.py lines 84-94). -/
def is_constant (token : String) : Bool := isIntShape token || isStrShape token

/-! ## tokenize (lexicalanalyzer.py lines 42-68)

The Python code works with `str.replace`, `re.finditer` and
`str.split()`; these are embedded as explicit recursions on `List
Char`. -/

/-- Python `str.replace(pat, repl)`: replace every non-overlapping
occurrence of `pat`, scanning left to right over the original text.
Structurally recursive on a fuel argument so that the kernel can
evaluate it; every step consumes at least one character, so any fuel
at least the text length gives the replacement semantics
(`replaceAll_cons` below recovers the natural recursion). -/
def replaceAllF (pat repl : List Char) : Nat → List Char → List Char
  | 0, s => s
  | _ + 1, [] => []
  | fuel + 1, c :: rest =>
    if pat ≠ [] ∧ pat.isPrefixOf (c :: rest) then
      repl ++ replaceAllF pat repl fuel ((c :: rest).drop pat.length)
    else
      c :: replaceAllF pat repl fuel rest

/-- Python `str.replace(pat, repl)` on a whole text. -/
def replaceAll (pat repl s : List Char) : List Char :=
  replaceAllF pat repl s.length s

/-- `re.finditer` for the pattern consisting of a double quote, any
run of non-quote characters, and a closing double quote
(lexicalanalyzer.py line 53): the non-overlapping matches, left to
right.  An opening quote with no closing quote matches nothing and
ends the scan.  Fuel-structured like `replaceAllF`. -/
def findStringLitsF : Nat → List Char → List (List Char)
  | 0, _ => []
  | _ + 1, [] => []
  | fuel + 1, c :: rest =>
    if c = '"' then
      let inner := rest.takeWhile (fun d => d ≠ '"')
      if inner.length < rest.length then
        ('"' :: (inner ++ ['"'])) :: findStringLitsF fuel (rest.drop (inner.length + 1))
      else []
    else findStringLitsF fuel rest

/-- All string-literal matches of a line, leftmost first. -/
def findStringLits (l : List Char) : List (List Char) :=
  findStringLitsF l.length l

/-- Python `str.split()` with no argument: split on maximal runs of
whitespace, discarding empty pieces.  `cur` accumulates the current
token reversed. -/
def splitWsAux (cur : List Char) : List Char → List (List Char)
  | [] => if cur.isEmpty then [] else [cur.reverse]
  | c :: rest =>
    if c.isWhitespace then
      if cur.isEmpty then splitWsAux [] rest else cur.reverse :: splitWsAux [] rest
    else splitWsAux (c :: cur) rest

/-- Python `str.split()` on a whole line. -/
def splitWs (l : List Char) : List (List Char) := splitWsAux [] l

/-- Python `str.strip()` on a token: drop whitespace from both ends. -/
def trimWs (l : List Char) : List Char :=
  ((l.dropWhile Char.isWhitespace).reverse.dropWhile Char.isWhitespace).reverse

/-- Python `str.strip()` on a whole string. -/
def stripStr (s : String) : String := String.mk (trimWs s.data)

/-- Python `str.split(chr(10))` — split on every newline, keeping
empty pieces (`analyze` iterates over these lines). -/
def splitNl : List Char → List (List Char)
  | [] => [[]]
  | c :: rest =>
    let r := splitNl rest
    if c = '\n' then [] :: r
    else
      match r with
      | [] => [[c]]
      | x :: xs => (c :: x) :: xs

/-- The enumerated lines of a source text: `(0-based index, line)`. -/
def enumLines (code : String) : List (Nat × String) :=
  ((splitNl code.data).map (fun l => String.mk l)).enum

/-- The placeholder text `STRING_<i>` substituted for the `i`-th
string literal of a line (lexicalanalyzer.py line 56). -/
def placeholder (i : Nat) : List Char := ("STRING_" ++ Nat.repr i).data

/-- `tokenize` (lexicalanalyzer.py lines 42-68): extract the string
literals of the original line, replace each in turn by its
placeholder, pad every separator with spaces (the Python iteration
order over the separator set is interpreter-dependent, but the nine
single-character replacements commute, so a fixed order is faithful),
split on whitespace, strip and drop empty tokens, then substitute each
placeholder token back to its literal. -/
def tokenize (line : String) : List String :=
  let l0 := line.data
  let string_tokens := (findStringLits l0).enum.map (fun p => (placeholder p.1, p.2))
  let l1 := string_tokens.foldl (fun acc p => replaceAll p.2 p.1 acc) l0
  let l2 := sepChars.foldl (fun acc c => replaceAll [c] [' ', c, ' '] acc) l1
  let toks := ((splitWs l2).map trimWs).filter (fun t => !t.isEmpty)
  let toks2 := string_tokens.foldl (fun acc p => acc.map (fun t => if t = p.1 then p.2 else t)) toks
  toks2.map (fun t => String.mk t)

/-! ## analyze (lexicalanalyzer.py lines 96-143) -/

/-- The analyzer instance state set up by `LexicalAnalyzer.__init__`
(lexicalanalyzer.py lines 11-22): the two symbol tables, the PIF
buffer, and the two position counters. -/
structure LexicalAnalyzer where
  identifier_st : SymbolTableIdentifiers
  constant_st : SymbolTableConstants
  pif : List (String × Int)
  id_counter : Nat
  const_counter : Nat

/-- A fresh `LexicalAnalyzer()` built in a process whose string hash
is `h`. -/
def LexicalAnalyzer.init (h : String → Nat) : LexicalAnalyzer :=
  ⟨SymbolTableIdentifiers.init h, SymbolTableConstants.init h, [], 0, 0⟩

/-- The position read back from a symbol table right after the
conditional insert in `analyze` (lexicalanalyzer.py lines 130, 136).
On every well-formed table the lookup succeeds, so the `none` branch
is unreachable there (`get_after_intern` below); its value only fixes
a total function. -/
def refOfPos : Option Nat → Int
  | some p => (p : Int)
  | none => -1

/-- The single-quote character, used by the error message format. -/
def sq : String := String.singleton (Char.ofNat 39)

/-- The message recorded for an invalid token
(lexicalanalyzer.py line 139). -/
def errMsg (lineNo : Nat) (token : String) : String :=
  "Lexical error at line " ++ Nat.repr lineNo ++ ": Invalid token " ++ sq ++ token ++ sq

/-- The mutable state of one `analyze` call: the instance plus the
local `errors` accumulator. -/
structure ScanState where
  A : LexicalAnalyzer
  errors : List String

/-- The classification cascade for one raw token
(lexicalanalyzer.py lines 119-139). -/
def processToken (lineNo : Nat) (s : ScanState) (token : String) : ScanState :=
  if lowerStr token ∈ reserved_words then
    { s with A := { s.A with pif := s.A.pif ++ [(lowerStr token, -1)] } }
  else if token ∈ operators then
    { s with A := { s.A with pif := s.A.pif ++ [(token, -1)] } }
  else if token ∈ separators then
    { s with A := { s.A with pif := s.A.pif ++ [(token, -1)] } }
  else if is_identifier token then
    let A1 :=
      if s.A.identifier_st.get_identifier_value token = none then
        { s.A with identifier_st := s.A.identifier_st.add_identifier token s.A.id_counter,
                   id_counter := s.A.id_counter + 1 }
      else s.A
    { s with A := { A1 with
        pif := A1.pif ++ [("identifier", refOfPos (A1.identifier_st.get_identifier_value token))] } }
  else if is_constant token then
    let A1 :=
      if s.A.constant_st.get_constant_value token = none then
        { s.A with constant_st := s.A.constant_st.add_constant token s.A.const_counter,
                   const_counter := s.A.const_counter + 1 }
      else s.A
    { s with A := { A1 with
        pif := A1.pif ++ [("constant", refOfPos (A1.constant_st.get_constant_value token))] } }
  else
    { s with errors := s.errors ++ [errMsg lineNo token] }

/-- The inner token loop of `analyze` over one stripped line. -/
def processLine (lineNo : Nat) (s : ScanState) (line : String) : ScanState :=
  (tokenize line).foldl (processToken lineNo) s

/-- The line loop of `analyze`: split on newlines, count every line
(blank ones included), strip, skip blanks, scan the rest.  The PIF
buffer is cleared on entry (lexicalanalyzer.py line 107) and the
`errors` accumulator starts empty. -/
def analyzeScan (A : LexicalAnalyzer) (code : String) : ScanState :=
  (enumLines code).foldl
    (fun s p =>
      let line := stripStr p.2
      if line = "" then s else processLine (p.1 + 1) s line)
    ⟨{ A with pif := [] }, []⟩

/-- `analyze` (lexicalanalyzer.py lines 96-143): the updated instance
together with the verdict string. -/
def analyze (A : LexicalAnalyzer) (code : String) : LexicalAnalyzer × String :=
  let s := analyzeScan A code
  (s.A, if s.errors = [] then "Lexically correct" else String.intercalate "\n" s.errors)

/-! ## Specification-side views of one run

These re-traverse the source text independently of the analyzer state;
the theorems below relate `analyze` to them. -/

/-- The `(line number, raw token)` pairs `analyze` iterates over, in
scan order. -/
def lineTokens (code : String) : List (Nat × String) :=
  (enumLines code).flatMap (fun p =>
    let line := stripStr p.2
    if line = "" then [] else (tokenize line).map (fun t => (p.1 + 1, t)))

/-- The cascade reaches the identifier branch: not a reserved word,
operator or separator, and of identifier shape. -/
def classIsIdent (t : String) : Bool :=
  !(decide (lowerStr t ∈ reserved_words)) && !(decide (t ∈ operators)) &&
    !(decide (t ∈ separators)) && is_identifier t

/-- The cascade reaches the constant branch. -/
def classIsConst (t : String) : Bool :=
  !(decide (lowerStr t ∈ reserved_words)) && !(decide (t ∈ operators)) &&
    !(decide (t ∈ separators)) && !(is_identifier t) && is_constant t

/-- The cascade falls through every classifier: the token is invalid. -/
def classIsInvalid (t : String) : Bool :=
  !(decide (lowerStr t ∈ reserved_words)) && !(decide (t ∈ operators)) &&
    !(decide (t ∈ separators)) && !(is_identifier t) && !(is_constant t)

/-- The identifier-classified lexemes among a list of
`(line, token)` pairs, in order. -/
def identsOf (lts : List (Nat × String)) : List String :=
  (lts.filter (fun p => classIsIdent p.2)).map Prod.snd

/-- The identifier-classified lexemes of a source text, in scan
order. -/
def identTokens (code : String) : List String :=
  identsOf (lineTokens code)

/-- The constant-classified lexemes among a list of `(line, token)`
pairs, in order. -/
def constsOf (lts : List (Nat × String)) : List String :=
  (lts.filter (fun p => classIsConst p.2)).map Prod.snd

/-- The constant-classified lexemes of a source text, in scan order. -/
def constTokens (code : String) : List String :=
  constsOf (lineTokens code)

/-- The error messages a scan of `code` records, in scan order. -/
def errorList (code : String) : List String :=
  ((lineTokens code).filter (fun p => classIsInvalid p.2)).map (fun p => errMsg p.1 p.2)

/-- The distinct elements of a list in first-seen order,
generalized by an accumulator of elements already seen. -/
def firstSeenAux (acc : List String) : List String → List String
  | [] => acc
  | w :: ws => firstSeenAux (if w ∈ acc then acc else acc ++ [w]) ws

/-- The distinct elements of a list in first-seen order. -/
def firstSeen (l : List String) : List String := firstSeenAux [] l

/-! ## Operation sequences on a symbol table (for the lifetime
invariant) -/

/-- One call against a `SymbolTableIdentifiers` facade. -/
inductive STOp where
  | add (k : String) (v : Nat)
  | rem (k : String)

/-- Run one facade call. -/
def applyOp (st : SymbolTableIdentifiers) : STOp → SymbolTableIdentifiers
  | .add k v => st.add_identifier k v
  | .rem k => st.remove_identifier k

/-- Run a sequence of facade calls, oldest first. -/
def applyOps (st : SymbolTableIdentifiers) (ops : List STOp) : SymbolTableIdentifiers :=
  ops.foldl applyOp st

/-- Whether a call targets the key `k`. -/
def STOp.touches (k : String) : STOp → Prop
  | .add q _ => q = k
  | .rem q => q = k

/-- Both symbol tables of an analyzer instance are well formed; holds
for a fresh instance and is preserved by `analyze`. -/
def LexicalAnalyzer.WF (A : LexicalAnalyzer) : Prop :=
  A.identifier_st.symbol_table.WF ∧ A.constant_st.symbol_table.WF

/-- Two tables that answer every lookup identically — in particular
tables built under different process hash seeds holding the same
bindings. -/
def tablesAgree (t1 t2 : HashTable Nat) : Prop :=
  ∀ k, t1.get k = t2.get k

/-- ASCII letters and digits. -/
def isAlnum (c : Char) : Bool := c.isAlpha || c.isDigit

/-- One step of the flattened scan: feed the next `(line, token)` pair
to the classification cascade. -/
def scanStep (s : ScanState) (p : Nat × String) : ScanState :=
  processToken p.1 s p.2

/-- The identifier entries of a PIF, in order. -/
def pifIdents (pif : List (String × Int)) : List (String × Int) :=
  pif.filter (fun e => e.1 = "identifier")

/-- The constant entries of a PIF, in order. -/
def pifConsts (pif : List (String × Int)) : List (String × Int) :=
  pif.filter (fun e => e.1 = "constant")

/-- Loop invariant tying the identifier symbol table to the ghost list
`ws` of identifier lexemes in first-seen order: interned lexemes
resolve to their first-seen index, unseen ones to `none`, and the
counter equals the number interned. -/
def IdInv (s : ScanState) (ws : List String) : Prop :=
  (∀ w ∈ ws, s.A.identifier_st.get_identifier_value w = some (List.indexOf w ws))
  ∧ (∀ w, w ∉ ws → s.A.identifier_st.get_identifier_value w = none)
  ∧ s.A.id_counter = ws.length
  ∧ ws.Nodup
  ∧ s.A.identifier_st.symbol_table.WF

/-- The mirror of `IdInv` for the constant symbol table. -/
def CInv (s : ScanState) (cs : List String) : Prop :=
  (∀ w ∈ cs, s.A.constant_st.get_constant_value w = some (List.indexOf w cs))
  ∧ (∀ w, w ∉ cs → s.A.constant_st.get_constant_value w = none)
  ∧ s.A.const_counter = cs.length
  ∧ cs.Nodup
  ∧ s.A.constant_st.symbol_table.WF

/-- The bisimulation between two scans that started under different
process hash seeds: identical observable state (PIF, errors,
counters), lookup-equivalent tables, both well formed. -/
def ScanRel (s1 s2 : ScanState) : Prop :=
  s1.A.pif = s2.A.pif
  ∧ s1.errors = s2.errors
  ∧ s1.A.id_counter = s2.A.id_counter
  ∧ s1.A.const_counter = s2.A.const_counter
  ∧ tablesAgree s1.A.identifier_st.symbol_table s2.A.identifier_st.symbol_table
  ∧ tablesAgree s1.A.constant_st.symbol_table s2.A.constant_st.symbol_table
  ∧ s1.A.WF
  ∧ s2.A.WF

/-! # Theorems

First, list and chain lemmas; then the hash-table contract; then the
analyzer. -/

theorem getD_set_self {α : Type} (l : List α) (i : Nat) (x d : α) (h : i < l.length) :
    (l.set i x).getD i d = x := by
  induction l generalizing i with
  | nil => simp at h
  | cons a rest ih =>
    cases i with
    | zero => rfl
    | succ n =>
      simp only [List.set_cons_succ, List.getD_cons_succ]
      exact ih n (by simpa using h)

theorem getD_set_ne {α : Type} (l : List α) (i j : Nat) (x d : α) (h : j ≠ i) :
    (l.set i x).getD j d = l.getD j d := by
  induction l generalizing i j with
  | nil => rfl
  | cons a rest ih =>
    cases i with
    | zero =>
      cases j with
      | zero => exact absurd rfl h
      | succ m => rfl
    | succ n =>
      cases j with
      | zero => rfl
      | succ m =>
        simp only [List.set_cons_succ, List.getD_cons_succ]
        exact ih n m (fun hc => h (by simp [hc]))

theorem getD_of_length_le {α : Type} (l : List α) (i : Nat) (d : α) (h : l.length ≤ i) :
    l.getD i d = d := by
  induction l generalizing i with
  | nil => cases i <;> rfl
  | cons a rest ih =>
    cases i with
    | zero => simp at h
    | succ n =>
      simp only [List.getD_cons_succ]
      exact ih n (by simpa using h)

/-! ## Chain lemmas -/

theorem getChain_putChain_self {V : Type} (k : String) (v : V) (c : Chain V) :
    getChain k (putChain k v c) = some v := by
  induction c with
  | nil => simp [putChain, getChain]
  | cons p rest ih =>
    obtain ⟨q, w⟩ := p
    by_cases hq : q = k
    · simp [putChain, getChain, hq]
    · simp [putChain, getChain, hq, ih]

theorem getChain_putChain_ne {V : Type} (k k2 : String) (v : V) (c : Chain V) (h : k2 ≠ k) :
    getChain k2 (putChain k v c) = getChain k2 c := by
  induction c with
  | nil => simp [putChain, getChain, Ne.symm h]
  | cons p rest ih =>
    obtain ⟨q, w⟩ := p
    by_cases hq : q = k
    · subst hq
      simp [putChain, getChain, Ne.symm h]
    · simp only [putChain, if_neg hq, getChain]
      by_cases hq2 : q = k2
      · simp [hq2]
      · simp [hq2, ih]

theorem getChain_eq_none_iff {V : Type} (k : String) (c : Chain V) :
    getChain k c = none ↔ k ∉ chainKeys c := by
  induction c with
  | nil => simp [getChain, chainKeys]
  | cons p rest ih =>
    obtain ⟨q, w⟩ := p
    by_cases hq : q = k
    · subst hq
      simp [getChain, chainKeys]
    · have hq2 : k ≠ q := Ne.symm hq
      simp only [getChain, if_neg hq, chainKeys, List.map_cons, List.mem_cons]
      rw [ih]
      simp only [chainKeys]
      constructor
      · intro hnot hmem
        rcases hmem with hc | hc
        · exact hq2 hc
        · exact hnot hc
      · intro hnot hc
        exact hnot (Or.inr hc)

theorem chainKeys_putChain {V : Type} (k : String) (v : V) (c : Chain V) :
    chainKeys (putChain k v c) =
      if k ∈ chainKeys c then chainKeys c else chainKeys c ++ [k] := by
  induction c with
  | nil => simp [putChain, chainKeys]
  | cons p rest ih =>
    obtain ⟨q, w⟩ := p
    by_cases hq : q = k
    · simp [putChain, chainKeys, hq]
    · have hq2 : ¬k = q := fun hc => hq hc.symm
      simp only [putChain, if_neg hq, chainKeys, List.map_cons]
      by_cases hm : k ∈ chainKeys rest
      · simp only [chainKeys] at ih hm
        simp [ih, hm, hq2]
      · simp only [chainKeys] at ih hm
        simp [ih, hm, hq2]

theorem putChain_of_not_mem {V : Type} (k : String) (v : V) (c : Chain V)
    (h : k ∉ chainKeys c) : putChain k v c = c ++ [(k, v)] := by
  induction c with
  | nil => simp [putChain]
  | cons p rest ih =>
    obtain ⟨q, w⟩ := p
    simp only [chainKeys, List.map_cons, List.mem_cons] at h
    push_neg at h
    simp only [putChain, if_neg (fun hc : q = k => h.1 hc.symm), List.cons_append]
    simp [ih h.2]

theorem putChain_of_mem {V : Type} (k : String) (v : V) (c : Chain V)
    (hn : (chainKeys c).Nodup) (h : k ∈ chainKeys c) :
    putChain k v c = c.map (fun p => if p.1 = k then (p.1, v) else p) := by
  induction c with
  | nil => simp [chainKeys] at h
  | cons p rest ih =>
    obtain ⟨q, w⟩ := p
    simp only [chainKeys, List.map_cons, List.nodup_cons] at hn
    by_cases hq : q = k
    · subst hq
      have hrest : rest.map (fun p => if p.1 = q then (p.1, v) else p) = rest := by
        have hfix : ∀ p ∈ rest, (if p.1 = q then (p.1, v) else p) = id p := by
          intro p hp
          have hne : p.1 ≠ q := fun hc => hn.1 (hc ▸ List.mem_map_of_mem Prod.fst hp)
          simp [hne]
        rw [List.map_congr_left hfix, List.map_id]
      simp [putChain, hrest]
    · have hk : k ∈ chainKeys rest := by
        simp only [chainKeys, List.map_cons, List.mem_cons] at h
        rcases h with hc | hc
        · exact absurd hc.symm hq
        · exact hc
      simp [putChain, hq, ih hn.2 hk, fun hc : k = q => hq hc.symm]

theorem mem_putChain {V : Type} (k : String) (v : V) (c : Chain V) :
    ∀ p ∈ putChain k v c, p ∈ c ∨ p = (k, v) := by
  induction c with
  | nil =>
    intro p hp
    simp only [putChain, List.mem_singleton] at hp
    exact Or.inr hp
  | cons q rest ih =>
    obtain ⟨a, b⟩ := q
    intro p hp
    by_cases ha : a = k
    · subst ha
      simp only [putChain, if_pos rfl, if_true, List.mem_cons] at hp
      rcases hp with h1 | h1
      · exact Or.inr (by simp [h1])
      · exact Or.inl (List.mem_cons_of_mem _ h1)
    · simp only [putChain, if_neg ha, List.mem_cons] at hp
      rcases hp with h1 | h1
      · exact Or.inl (by simp [h1])
      · rcases ih p h1 with h2 | h2
        · exact Or.inl (List.mem_cons_of_mem _ h2)
        · exact Or.inr h2

theorem removeChain_sublist {V : Type} (k : String) (c : Chain V) :
    (removeChain k c).Sublist c := by
  induction c with
  | nil => simp [removeChain]
  | cons p rest ih =>
    obtain ⟨q, w⟩ := p
    by_cases hq : q = k
    · simpa [removeChain, hq] using List.sublist_cons_self (q, w) rest
    · simpa [removeChain, hq] using ih

theorem getChain_removeChain_ne {V : Type} (k k2 : String) (c : Chain V) (h : k2 ≠ k) :
    getChain k2 (removeChain k c) = getChain k2 c := by
  induction c with
  | nil => simp [removeChain]
  | cons p rest ih =>
    obtain ⟨q, w⟩ := p
    by_cases hq : q = k
    · subst hq
      simp [removeChain, getChain, Ne.symm h]
    · simp only [removeChain, if_neg hq, getChain]
      by_cases hq2 : q = k2
      · simp [hq2]
      · simp [hq2, ih]

theorem getChain_removeChain_self {V : Type} (k : String) (c : Chain V)
    (hn : (chainKeys c).Nodup) : getChain k (removeChain k c) = none := by
  induction c with
  | nil => simp [removeChain, getChain]
  | cons p rest ih =>
    obtain ⟨q, w⟩ := p
    simp only [chainKeys, List.map_cons, List.nodup_cons] at hn
    by_cases hq : q = k
    · subst hq
      simp only [removeChain, if_pos rfl]
      exact (getChain_eq_none_iff q rest).mpr hn.1
    · simp [removeChain, getChain, hq, ih hn.2]

/-! ## Hash-table contract -/

theorem hashIdx_lt {V : Type} (t : HashTable V) (w : t.WF) (k : String) :
    t.hashIdx k < t.table.length := by
  rw [w.len_eq]
  exact Nat.mod_lt _ w.size_pos

theorem bucket_put_self {V : Type} (t : HashTable V) (w : t.WF) (k : String) (v : V) :
    (t.put k v).bucket (t.hashIdx k) = putChain k v (t.bucket (t.hashIdx k)) := by
  unfold HashTable.put HashTable.bucket
  exact getD_set_self _ _ _ _ (hashIdx_lt t w k)

theorem bucket_put_ne {V : Type} (t : HashTable V) (k : String) (v : V) (i : Nat)
    (hi : i ≠ t.hashIdx k) : (t.put k v).bucket i = t.bucket i := by
  unfold HashTable.put HashTable.bucket
  exact getD_set_ne _ _ _ _ _ hi

theorem bucket_remove_self {V : Type} (t : HashTable V) (w : t.WF) (k : String) :
    (t.remove k).bucket (t.hashIdx k) = removeChain k (t.bucket (t.hashIdx k)) := by
  unfold HashTable.remove HashTable.bucket
  exact getD_set_self _ _ _ _ (hashIdx_lt t w k)

theorem bucket_remove_ne {V : Type} (t : HashTable V) (k : String) (i : Nat)
    (hi : i ≠ t.hashIdx k) : (t.remove k).bucket i = t.bucket i := by
  unfold HashTable.remove HashTable.bucket
  exact getD_set_ne _ _ _ _ _ hi

theorem bucket_eq_nil_of_le {V : Type} (t : HashTable V) (i : Nat)
    (hi : t.table.length ≤ i) : t.bucket i = [] :=
  getD_of_length_le _ _ _ hi

theorem get_put_self {V : Type} (t : HashTable V) (w : t.WF) (k : String) (v : V) :
    (t.put k v).get k = some v := by
  show getChain k ((t.put k v).bucket (t.hashIdx k)) = some v
  rw [bucket_put_self t w k v]
  exact getChain_putChain_self k v _

theorem get_put_ne {V : Type} (t : HashTable V) (w : t.WF) (k k2 : String) (v : V)
    (h : k2 ≠ k) : (t.put k v).get k2 = t.get k2 := by
  show getChain k2 ((t.put k v).bucket (t.hashIdx k2)) = t.get k2
  by_cases hb : t.hashIdx k2 = t.hashIdx k
  · rw [hb, bucket_put_self t w k v]
    rw [getChain_putChain_ne k k2 v _ h]
    show getChain k2 (t.bucket (t.hashIdx k)) = getChain k2 (t.bucket (t.hashIdx k2))
    rw [hb]
  · rw [bucket_put_ne t k v _ hb]
    rfl

theorem get_remove_self {V : Type} (t : HashTable V) (w : t.WF) (k : String) :
    (t.remove k).get k = none := by
  show getChain k ((t.remove k).bucket (t.hashIdx k)) = none
  rw [bucket_remove_self t w k]
  exact getChain_removeChain_self k _ (w.nodup _)

theorem get_remove_ne {V : Type} (t : HashTable V) (w : t.WF) (k k2 : String)
    (h : k2 ≠ k) : (t.remove k).get k2 = t.get k2 := by
  show getChain k2 ((t.remove k).bucket (t.hashIdx k2)) = t.get k2
  by_cases hb : t.hashIdx k2 = t.hashIdx k
  · rw [hb, bucket_remove_self t w k]
    rw [getChain_removeChain_ne k k2 _ h]
    show getChain k2 (t.bucket (t.hashIdx k)) = getChain k2 (t.bucket (t.hashIdx k2))
    rw [hb]
  · rw [bucket_remove_ne t k _ hb]
    rfl

theorem WF_put {V : Type} (t : HashTable V) (w : t.WF) (k : String) (v : V) :
    (t.put k v).WF := by
  constructor
  · exact w.size_pos
  · show (t.table.set (t.hashIdx k) _).length = t.size
    rw [List.length_set]
    exact w.len_eq
  · intro i
    by_cases hi : i = t.hashIdx k
    · subst hi
      rw [bucket_put_self t w k v, chainKeys_putChain]
      by_cases hm : k ∈ chainKeys (t.bucket (t.hashIdx k))
      · simpa [hm] using w.nodup _
      · simp only [hm, if_false]
        refine List.Nodup.append (w.nodup _) (List.nodup_singleton k) ?_
        intro a ha hb
        rw [List.mem_singleton] at hb
        exact hm (hb ▸ ha)
    · rw [bucket_put_ne t k v i hi]
      exact w.nodup i
  · intro i hi p hp
    by_cases hi2 : i = t.hashIdx k
    · subst hi2
      rw [bucket_put_self t w k v] at hp
      rcases mem_putChain k v _ p hp with hm | hm
      · exact w.placed _ hi p hm
      · show t.hashFn p.1 % t.size = t.hashIdx k
        rw [hm]
        rfl
    · rw [bucket_put_ne t k v i hi2] at hp
      exact w.placed i hi p hp

theorem WF_remove {V : Type} (t : HashTable V) (w : t.WF) (k : String) :
    (t.remove k).WF := by
  constructor
  · exact w.size_pos
  · show (t.table.set (t.hashIdx k) _).length = t.size
    rw [List.length_set]
    exact w.len_eq
  · intro i
    by_cases hi : i = t.hashIdx k
    · subst hi
      rw [bucket_remove_self t w k]
      exact ((removeChain_sublist k _).map Prod.fst).nodup (w.nodup _)
    · rw [bucket_remove_ne t k i hi]
      exact w.nodup i
  · intro i hi p hp
    by_cases hi2 : i = t.hashIdx k
    · subst hi2
      rw [bucket_remove_self t w k] at hp
      exact w.placed _ hi p ((removeChain_sublist k _).mem hp)
    · rw [bucket_remove_ne t k i hi2] at hp
      exact w.placed i hi p hp

theorem WF_init {V : Type} (h : String → Nat) : (HashTable.init h : HashTable V).WF := by
  have hb : ∀ i, (HashTable.init h : HashTable V).bucket i = [] := by
    intro i
    match i with
    | 0 => rfl
    | 1 => rfl
    | n + 2 => rfl
  constructor
  · exact Nat.zero_lt_two
  · rfl
  · intro i
    rw [hb i]
    exact List.nodup_nil
  · intro i hi p hp
    rw [hb i] at hp
    exact absurd hp (List.not_mem_nil p)

theorem Reachable_WF {V : Type} (h : String → Nat) (t : HashTable V)
    (hr : Reachable h t) : t.WF := by
  induction hr with
  | init => exact WF_init h
  | put t k v _ ih => exact WF_put t ih k v
  | rem t k _ ih => exact WF_remove t ih k

theorem bucket_eq_getElem {V : Type} (t : HashTable V) (i : Nat) (hi : i < t.table.length) :
    t.bucket i = t.table[i] := by
  show t.table.getD i [] = t.table[i]
  exact List.getD_eq_getElem _ _ hi

theorem hash_of_mem_chainKeys {V : Type} (t : HashTable V) (w : t.WF) (i : Nat) (k : String)
    (hi : i < t.table.length) (hk : k ∈ chainKeys (t.bucket i)) :
    t.hashFn k % t.size = i := by
  simp only [chainKeys] at hk
  obtain ⟨p, hp, hpk⟩ := List.mem_map.mp hk
  have hres := w.placed i (by rw [← w.len_eq]; exact hi) p hp
  rwa [hpk] at hres

theorem get_eq_none_iff {V : Type} (t : HashTable V) (w : t.WF) (k : String) :
    t.get k = none ↔ k ∉ t.keys := by
  rw [show t.get k = getChain k (t.bucket (t.hashIdx k)) from rfl, getChain_eq_none_iff]
  simp only [HashTable.keys, HashTable.entries]
  constructor
  · intro hnb hkeys
    obtain ⟨p, hp, hpk⟩ := List.mem_map.mp hkeys
    obtain ⟨c, hc, hpc⟩ := List.mem_flatten.mp hp
    obtain ⟨j, hj, hje⟩ := List.mem_iff_getElem.mp hc
    have hbj : t.bucket j = c := by rw [bucket_eq_getElem t j hj, hje]
    have hjk : k ∈ chainKeys (t.bucket j) := by
      rw [hbj]
      simp only [chainKeys]
      rw [← hpk]
      exact List.mem_map_of_mem Prod.fst hpc
    have hplace := hash_of_mem_chainKeys t w j k hj hjk
    have hidx : t.hashIdx k = j := hplace
    rw [hidx] at hnb
    exact hnb hjk
  · intro hnk hmem
    apply hnk
    simp only [chainKeys] at hmem
    obtain ⟨p, hpc, hpk⟩ := List.mem_map.mp hmem
    have hlt := hashIdx_lt t w k
    refine List.mem_map.mpr ⟨p, ?_, hpk⟩
    refine List.mem_flatten.mpr ⟨t.bucket (t.hashIdx k), ?_, hpc⟩
    rw [bucket_eq_getElem t _ hlt]
    exact List.getElem_mem hlt

theorem keys_nodup {V : Type} (t : HashTable V) (w : t.WF) : t.keys.Nodup := by
  show ((t.table.flatten).map Prod.fst).Nodup
  rw [List.map_flatten, List.nodup_flatten]
  constructor
  · intro l hl
    obtain ⟨c, hc, hlc⟩ := List.mem_map.mp hl
    obtain ⟨j, hj, hje⟩ := List.mem_iff_getElem.mp hc
    have hbj : t.bucket j = c := by rw [bucket_eq_getElem t j hj, hje]
    have hres := w.nodup j
    rw [hbj] at hres
    rw [← hlc]
    exact hres
  · rw [List.pairwise_map, List.pairwise_iff_getElem]
    intro i j hi hj hij
    intro a hai haj
    have hbi : t.bucket i = t.table[i] := bucket_eq_getElem t i hi
    have hbj : t.bucket j = t.table[j] := bucket_eq_getElem t j hj
    have h1 : t.hashFn a % t.size = i := by
      refine hash_of_mem_chainKeys t w i a hi ?_
      simp only [chainKeys]
      rw [hbi]
      exact hai
    have h2 : t.hashFn a % t.size = j := by
      refine hash_of_mem_chainKeys t w j a hj ?_
      simp only [chainKeys]
      rw [hbj]
      exact haj
    omega

/-- C7: for every well-formed table state, key and value, `put` then `get`
returns the new value; `get` returns the not-found sentinel exactly
when the key is absent; `put` overwrites in place (preserving chain
order) when the key is present and appends a new entry at the chain
tail otherwise. -/
theorem put_get_contract {V : Type} (t : HashTable V) (w : t.WF) (k : String) (v : V) :
    (t.put k v).get k = some v
    ∧ (t.get k = none ↔ k ∉ t.keys)
    ∧ (k ∈ chainKeys (t.bucket (t.hashIdx k)) →
        (t.put k v).bucket (t.hashIdx k) =
          (t.bucket (t.hashIdx k)).map (fun p => if p.1 = k then (p.1, v) else p))
    ∧ (k ∉ chainKeys (t.bucket (t.hashIdx k)) →
        (t.put k v).bucket (t.hashIdx k) = t.bucket (t.hashIdx k) ++ [(k, v)]) := by
  refine ⟨get_put_self t w k v, get_eq_none_iff t w k, ?_, ?_⟩
  · intro hm
    rw [bucket_put_self t w k v]
    exact putChain_of_mem k v _ (w.nodup _) hm
  · intro hm
    rw [bucket_put_self t w k v]
    exact putChain_of_not_mem k v _ hm

/-- Witness for C7 at a concrete well-formed table. -/
theorem put_get_contract_witness :
    ((HashTable.init (fun _ => 0) : HashTable Nat).WF)
    ∧ (((HashTable.init (fun _ => 0) : HashTable Nat).put "a" 1).get "a" = some 1) :=
  ⟨WF_init _, (put_get_contract (HashTable.init (fun _ => 0)) (WF_init _) "a" 1).1⟩

/-- C8: every table reachable from a fresh `HashTable()` by `put` and
`remove` calls has pairwise distinct keys, and no entry is stored in
two different buckets. -/
theorem reachable_no_duplicates {V : Type} (h : String → Nat) (t : HashTable V)
    (hr : Reachable h t) :
    t.keys.Nodup ∧ ∀ i j, i ≠ j → ∀ p, p ∈ t.bucket i → p ∉ t.bucket j := by
  have w := Reachable_WF h t hr
  refine ⟨keys_nodup t w, ?_⟩
  intro i j hij p hpi hpj
  by_cases hi : i < t.table.length
  · by_cases hj : j < t.table.length
    · have h1 : t.hashFn p.1 % t.size = i := by
        refine hash_of_mem_chainKeys t w i p.1 hi ?_
        simp only [chainKeys]
        exact List.mem_map_of_mem Prod.fst hpi
      have h2 : t.hashFn p.1 % t.size = j := by
        refine hash_of_mem_chainKeys t w j p.1 hj ?_
        simp only [chainKeys]
        exact List.mem_map_of_mem Prod.fst hpj
      exact hij (h1 ▸ h2)
    · rw [bucket_eq_nil_of_le t j (Nat.le_of_not_lt hj)] at hpj
      exact absurd hpj (List.not_mem_nil p)
  · rw [bucket_eq_nil_of_le t i (Nat.le_of_not_lt hi)] at hpi
    exact absurd hpi (List.not_mem_nil p)

/-- Witness for C8 at a table reached by two puts and one remove. -/
theorem reachable_no_duplicates_witness :
    Reachable (fun _ => 0)
      ((((HashTable.init (fun _ => 0) : HashTable Nat).put "a" 1).put "b" 2).remove "a")
    ∧ (((((HashTable.init (fun _ => 0) : HashTable Nat).put "a" 1).put "b" 2).remove
        "a").keys).Nodup :=
  ⟨Reachable.rem _ _ (Reachable.put _ _ _ (Reachable.put _ _ _ Reachable.init)),
   (reachable_no_duplicates (fun _ => 0) _
      (Reachable.rem _ _ (Reachable.put _ _ _ (Reachable.put _ _ _ Reachable.init)))).1⟩

/-! ## Symbol-table position lifetime (C5) -/

/-- Counterexample to C5 as stated: intern `x` at position 0, remove
it, and the next lookup answers `none`, not the old position — a
removed lexeme does not keep resolving to its position "even if the
entry is later removed". -/
theorem sym_remove_counterexample :
    (((SymbolTableIdentifiers.init (fun _ => 0)).add_identifier "x" 0).get_identifier_value
        "x" = some 0)
    ∧ ((((SymbolTableIdentifiers.init (fun _ => 0)).add_identifier "x" 0).remove_identifier
          "x").get_identifier_value "x" ≠ some 0) := by
  constructor
  · rfl
  · decide

/-- C5 (amended): once a lexeme is interned at a position, every later
lookup during the table's lifetime returns that same position as long
as no `add`/`remove` call targets that same lexeme; calls touching
other lexemes — removals included — never renumber it, and the state
stays well formed. -/
theorem sym_position_stable (st : SymbolTableIdentifiers)
    (w : st.symbol_table.WF) (k : String) (p : Nat) (ops : List STOp)
    (hget : st.get_identifier_value k = some p)
    (hops : ∀ op ∈ ops, ¬ op.touches k) :
    (applyOps st ops).get_identifier_value k = some p
    ∧ (applyOps st ops).symbol_table.WF := by
  induction ops generalizing st with
  | nil => exact ⟨hget, w⟩
  | cons op rest ih =>
    have hop := hops op (List.mem_cons_self op rest)
    have hrest : ∀ o ∈ rest, ¬ o.touches k :=
      fun o ho => hops o (List.mem_cons_of_mem op ho)
    match op with
    | .add q v =>
      have hqk : k ≠ q := fun hc => hop hc.symm
      refine ih (st.add_identifier q v) (WF_put _ w q v) ?_ hrest
      show (st.symbol_table.put q v).get k = some p
      rw [get_put_ne st.symbol_table w q k v hqk]
      exact hget
    | .rem q =>
      have hqk : k ≠ q := fun hc => hop hc.symm
      refine ih (st.remove_identifier q) (WF_remove _ w q) ?_ hrest
      show (st.symbol_table.remove q).get k = some p
      rw [get_remove_ne st.symbol_table w q k hqk]
      exact hget

/-- Witness for the amended C5: `x` interned at 0 survives an add and
a remove of `y` unchanged. -/
theorem sym_position_stable_witness :
    (((SymbolTableIdentifiers.init (fun _ => 0)).add_identifier "x" 0).get_identifier_value
        "x" = some 0)
    ∧ (∀ op ∈ [STOp.add "y" 1, STOp.rem "y"], ¬ op.touches "x")
    ∧ (applyOps ((SymbolTableIdentifiers.init (fun _ => 0)).add_identifier "x" 0)
          [STOp.add "y" 1, STOp.rem "y"]).get_identifier_value "x" = some 0 := by
  refine ⟨rfl, ?_, ?_⟩
  · intro op hop
    simp only [List.mem_cons, List.mem_singleton] at hop
    rcases hop with h | h | h
    · subst h; simp [STOp.touches]
    · subst h; simp [STOp.touches]
    · exact absurd h (List.not_mem_nil op)
  · refine (sym_position_stable
        ((SymbolTableIdentifiers.init (fun _ => 0)).add_identifier "x" 0)
        (WF_put (HashTable.init (fun _ => 0)) (WF_init (fun _ => 0)) "x" 0) "x" 0
        [STOp.add "y" 1, STOp.rem "y"] rfl ?_).1
    intro op hop
    simp only [List.mem_cons, List.mem_singleton] at hop
    rcases hop with h | h | h
    · subst h; simp [STOp.touches]
    · subst h; simp [STOp.touches]
    · exact absurd h (List.not_mem_nil op)

/-! ## Per-token behavior of the classification cascade -/

theorem bucket_init {V : Type} (h : String → Nat) (i : Nat) :
    (HashTable.init h : HashTable V).bucket i = [] := by
  match i with
  | 0 => rfl
  | 1 => rfl
  | n + 2 => rfl

theorem get_init {V : Type} (h : String → Nat) (k : String) :
    (HashTable.init h : HashTable V).get k = none := by
  show getChain k ((HashTable.init h : HashTable V).bucket _) = none
  rw [bucket_init]
  rfl

theorem classIsIdent_iff (t : String) :
    classIsIdent t = true ↔
      (lowerStr t ∉ reserved_words ∧ t ∉ operators ∧ t ∉ separators
        ∧ is_identifier t = true) := by
  simp [classIsIdent, and_assoc]

theorem classIsConst_iff (t : String) :
    classIsConst t = true ↔
      (lowerStr t ∉ reserved_words ∧ t ∉ operators ∧ t ∉ separators
        ∧ is_identifier t = false ∧ is_constant t = true) := by
  simp [classIsConst, and_assoc]

theorem classIsInvalid_iff (t : String) :
    classIsInvalid t = true ↔
      (lowerStr t ∉ reserved_words ∧ t ∉ operators ∧ t ∉ separators
        ∧ is_identifier t = false ∧ is_constant t = false) := by
  simp [classIsInvalid, and_assoc]

theorem processToken_reserved (n : Nat) (s : ScanState) (t : String)
    (h : lowerStr t ∈ reserved_words) :
    processToken n s t = { s with A := { s.A with pif := s.A.pif ++ [(lowerStr t, -1)] } } := by
  unfold processToken
  rw [if_pos h]

theorem processToken_operator (n : Nat) (s : ScanState) (t : String)
    (h1 : lowerStr t ∉ reserved_words) (h2 : t ∈ operators) :
    processToken n s t = { s with A := { s.A with pif := s.A.pif ++ [(t, -1)] } } := by
  unfold processToken
  rw [if_neg h1, if_pos h2]

theorem processToken_separator (n : Nat) (s : ScanState) (t : String)
    (h1 : lowerStr t ∉ reserved_words) (h2 : t ∉ operators) (h3 : t ∈ separators) :
    processToken n s t = { s with A := { s.A with pif := s.A.pif ++ [(t, -1)] } } := by
  unfold processToken
  rw [if_neg h1, if_neg h2, if_pos h3]

theorem processToken_ident_present (n : Nat) (s : ScanState) (t : String)
    (h1 : lowerStr t ∉ reserved_words) (h2 : t ∉ operators) (h3 : t ∉ separators)
    (h4 : is_identifier t = true) (p : Nat)
    (hget : s.A.identifier_st.get_identifier_value t = some p) :
    processToken n s t =
      { s with A := { s.A with pif := s.A.pif ++ [("identifier", (p : Int))] } } := by
  unfold processToken
  rw [if_neg h1, if_neg h2, if_neg h3, if_pos h4]
  have hnn : ¬(s.A.identifier_st.get_identifier_value t = none) := by
    rw [hget]
    exact Option.some_ne_none p
  rw [if_neg hnn]
  simp [hget, refOfPos]

theorem processToken_ident_new (n : Nat) (s : ScanState) (t : String)
    (h1 : lowerStr t ∉ reserved_words) (h2 : t ∉ operators) (h3 : t ∉ separators)
    (h4 : is_identifier t = true)
    (hget : s.A.identifier_st.get_identifier_value t = none)
    (w : s.A.identifier_st.symbol_table.WF) :
    processToken n s t =
      { s with A := { s.A with
          identifier_st := s.A.identifier_st.add_identifier t s.A.id_counter,
          id_counter := s.A.id_counter + 1,
          pif := s.A.pif ++ [("identifier", (s.A.id_counter : Int))] } } := by
  unfold processToken
  rw [if_neg h1, if_neg h2, if_neg h3, if_pos h4, if_pos hget]
  have hg2 : (s.A.identifier_st.add_identifier t s.A.id_counter).get_identifier_value t
      = some s.A.id_counter :=
    get_put_self s.A.identifier_st.symbol_table w t s.A.id_counter
  simp [hg2, refOfPos]

theorem processToken_const_present (n : Nat) (s : ScanState) (t : String)
    (h1 : lowerStr t ∉ reserved_words) (h2 : t ∉ operators) (h3 : t ∉ separators)
    (h4 : is_identifier t = false) (h5 : is_constant t = true) (p : Nat)
    (hget : s.A.constant_st.get_constant_value t = some p) :
    processToken n s t =
      { s with A := { s.A with pif := s.A.pif ++ [("constant", (p : Int))] } } := by
  unfold processToken
  rw [if_neg h1, if_neg h2, if_neg h3, if_neg (by rw [h4]; exact Bool.false_ne_true), if_pos h5]
  have hnn : ¬(s.A.constant_st.get_constant_value t = none) := by
    rw [hget]
    exact Option.some_ne_none p
  rw [if_neg hnn]
  simp [hget, refOfPos]

theorem processToken_const_new (n : Nat) (s : ScanState) (t : String)
    (h1 : lowerStr t ∉ reserved_words) (h2 : t ∉ operators) (h3 : t ∉ separators)
    (h4 : is_identifier t = false) (h5 : is_constant t = true)
    (hget : s.A.constant_st.get_constant_value t = none)
    (w : s.A.constant_st.symbol_table.WF) :
    processToken n s t =
      { s with A := { s.A with
          constant_st := s.A.constant_st.add_constant t s.A.const_counter,
          const_counter := s.A.const_counter + 1,
          pif := s.A.pif ++ [("constant", (s.A.const_counter : Int))] } } := by
  unfold processToken
  rw [if_neg h1, if_neg h2, if_neg h3, if_neg (by rw [h4]; exact Bool.false_ne_true),
    if_pos h5, if_pos hget]
  have hg2 : (s.A.constant_st.add_constant t s.A.const_counter).get_constant_value t
      = some s.A.const_counter :=
    get_put_self s.A.constant_st.symbol_table w t s.A.const_counter
  simp [hg2, refOfPos]

theorem processToken_invalid (n : Nat) (s : ScanState) (t : String)
    (h1 : lowerStr t ∉ reserved_words) (h2 : t ∉ operators) (h3 : t ∉ separators)
    (h4 : is_identifier t = false) (h5 : is_constant t = false) :
    processToken n s t = { s with errors := s.errors ++ [errMsg n t] } := by
  unfold processToken
  rw [if_neg h1, if_neg h2, if_neg h3, if_neg (by rw [h4]; exact Bool.false_ne_true),
    if_neg (by rw [h5]; exact Bool.false_ne_true)]

/-! ## Flattening the scan and the error contract -/

theorem scan_lines_eq (ls : List (Nat × String)) (s : ScanState) :
    ls.foldl
      (fun s p =>
        let line := stripStr p.2
        if line = "" then s else processLine (p.1 + 1) s line) s
    = (ls.flatMap (fun p =>
        let line := stripStr p.2
        if line = "" then [] else (tokenize line).map (fun t => (p.1 + 1, t)))).foldl
          scanStep s := by
  induction ls generalizing s with
  | nil => rfl
  | cons p rest ih =>
    simp only [List.foldl_cons, List.flatMap_cons, List.foldl_append]
    by_cases hb : stripStr p.2 = ""
    · simp only [hb, if_pos rfl, if_true]
      exact ih s
    · simp only [if_neg hb]
      rw [ih]
      congr 1
      unfold processLine
      rw [List.foldl_map]
      rfl

theorem analyzeScan_eq (A : LexicalAnalyzer) (code : String) :
    analyzeScan A code = (lineTokens code).foldl scanStep ⟨{ A with pif := [] }, []⟩ := by
  unfold analyzeScan lineTokens
  exact scan_lines_eq (enumLines code) _

theorem processToken_errors (n : Nat) (s : ScanState) (t : String) :
    (processToken n s t).errors
      = s.errors ++ (if classIsInvalid t then [errMsg n t] else []) := by
  by_cases h1 : lowerStr t ∈ reserved_words
  · rw [processToken_reserved n s t h1]
    have hc : classIsInvalid t = false := by
      refine Bool.eq_false_iff.mpr (fun hc => ?_)
      exact ((classIsInvalid_iff t).mp hc).1 h1
    simp [hc]
  · by_cases h2 : t ∈ operators
    · rw [processToken_operator n s t h1 h2]
      have hc : classIsInvalid t = false := by
        refine Bool.eq_false_iff.mpr (fun hc => ?_)
        exact ((classIsInvalid_iff t).mp hc).2.1 h2
      simp [hc]
    · by_cases h3 : t ∈ separators
      · rw [processToken_separator n s t h1 h2 h3]
        have hc : classIsInvalid t = false := by
          refine Bool.eq_false_iff.mpr (fun hc => ?_)
          exact ((classIsInvalid_iff t).mp hc).2.2.1 h3
        simp [hc]
      · by_cases h4 : is_identifier t
        · have hc : classIsInvalid t = false := by
            refine Bool.eq_false_iff.mpr (fun hc => ?_)
            have := ((classIsInvalid_iff t).mp hc).2.2.2.1
            rw [h4] at this
            exact absurd this (by decide)
          unfold processToken
          rw [if_neg h1, if_neg h2, if_neg h3, if_pos h4]
          simp [hc]
        · by_cases h5 : is_constant t
          · have hc : classIsInvalid t = false := by
              refine Bool.eq_false_iff.mpr (fun hc => ?_)
              have := ((classIsInvalid_iff t).mp hc).2.2.2.2
              rw [h5] at this
              exact absurd this (by decide)
            unfold processToken
            rw [if_neg h1, if_neg h2, if_neg h3,
              if_neg (by rw [Bool.not_eq_true] at h4; rw [h4]; exact Bool.false_ne_true),
              if_pos h5]
            simp [hc]
          · rw [Bool.not_eq_true] at h4 h5
            rw [processToken_invalid n s t h1 h2 h3 h4 h5]
            have hc : classIsInvalid t = true :=
              (classIsInvalid_iff t).mpr ⟨h1, h2, h3, h4, h5⟩
            simp [hc]

theorem foldl_scanStep_errors (lts : List (Nat × String)) (s : ScanState) :
    (lts.foldl scanStep s).errors
      = s.errors ++ (lts.filter (fun p => classIsInvalid p.2)).map (fun p => errMsg p.1 p.2) := by
  induction lts generalizing s with
  | nil => simp
  | cons p rest ih =>
    simp only [List.foldl_cons]
    rw [ih]
    show (processToken p.1 s p.2).errors ++ _ = _
    rw [processToken_errors p.1 s p.2]
    by_cases hc : classIsInvalid p.2
    · simp [List.filter_cons, hc]
    · simp [List.filter_cons, hc]

/-- C4: `analyze` never aborts on an invalid token: its local error
list is exactly one message per invalid token, in scan order
(`errorList`); the verdict is the newline-joined messages when any
exist and the fixed success literal otherwise; and the (possibly
partial) PIF assembled by the scan is returned in both cases. -/
theorem analyze_error_recovery (A : LexicalAnalyzer) (code : String) :
    (analyzeScan A code).errors = errorList code
    ∧ (analyze A code).2 =
        (if errorList code = [] then "Lexically correct"
         else String.intercalate "\n" (errorList code))
    ∧ (analyze A code).1.pif = (analyzeScan A code).A.pif := by
  have he : (analyzeScan A code).errors = errorList code := by
    rw [analyzeScan_eq, foldl_scanStep_errors]
    simp [errorList]
  refine ⟨he, ?_, rfl⟩
  show (if (analyzeScan A code).errors = [] then "Lexically correct"
      else String.intercalate "\n" ((analyzeScan A code).errors)) = _
  rw [he]

/-- C3: a raw token of identifier shape that equals a reserved word
case-insensitively is classified as the reserved word: the PIF gets
the lower-cased word with sentinel −1, the identifier table is left
untouched, and `is_identifier` itself rejects the token. -/
theorem reserved_beats_identifier (n : Nat) (s : ScanState) (t : String)
    (hshape : isIdentShape t = true) (hres : lowerStr t ∈ reserved_words) :
    processToken n s t = { s with A := { s.A with pif := s.A.pif ++ [(lowerStr t, -1)] } }
    ∧ (processToken n s t).A.identifier_st = s.A.identifier_st
    ∧ is_identifier t = false := by
  refine ⟨processToken_reserved n s t hres, ?_, ?_⟩
  · rw [processToken_reserved n s t hres]
  · unfold is_identifier
    rw [if_pos hres]

/-- Witness for C3 on the token `For`. -/
theorem reserved_beats_identifier_witness :
    isIdentShape "For" = true
    ∧ lowerStr "For" ∈ reserved_words
    ∧ is_identifier "For" = false :=
  ⟨by decide, by decide,
    (reserved_beats_identifier 1 ⟨LexicalAnalyzer.init (fun _ => 0), []⟩ "For"
      (by decide) (by decide)).2.2⟩

/-! ## Hash-seed independence (C9) -/

theorem processToken_bisim (n : Nat) (t : String) (s1 s2 : ScanState) (hr : ScanRel s1 s2) :
    ScanRel (processToken n s1 t) (processToken n s2 t) := by
  obtain ⟨hpif, herr, hidc, hcc, hidt, hct, w1, w2⟩ := hr
  by_cases h1 : lowerStr t ∈ reserved_words
  · rw [processToken_reserved n s1 t h1, processToken_reserved n s2 t h1]
    exact ⟨by simp [hpif], herr, hidc, hcc, hidt, hct, w1, w2⟩
  · by_cases h2 : t ∈ operators
    · rw [processToken_operator n s1 t h1 h2, processToken_operator n s2 t h1 h2]
      exact ⟨by simp [hpif], herr, hidc, hcc, hidt, hct, w1, w2⟩
    · by_cases h3 : t ∈ separators
      · rw [processToken_separator n s1 t h1 h2 h3, processToken_separator n s2 t h1 h2 h3]
        exact ⟨by simp [hpif], herr, hidc, hcc, hidt, hct, w1, w2⟩
      · by_cases h4 : is_identifier t
        · have hg : s1.A.identifier_st.get_identifier_value t
              = s2.A.identifier_st.get_identifier_value t := hidt t
          cases hcase : s1.A.identifier_st.get_identifier_value t with
          | some p =>
            have hg2 : s2.A.identifier_st.get_identifier_value t = some p := by
              rw [← hg]
              exact hcase
            rw [processToken_ident_present n s1 t h1 h2 h3 h4 p hcase,
              processToken_ident_present n s2 t h1 h2 h3 h4 p hg2]
            exact ⟨by simp [hpif], herr, hidc, hcc, hidt, hct, w1, w2⟩
          | none =>
            have hg2 : s2.A.identifier_st.get_identifier_value t = none := by
              rw [← hg]
              exact hcase
            rw [processToken_ident_new n s1 t h1 h2 h3 h4 hcase w1.1,
              processToken_ident_new n s2 t h1 h2 h3 h4 hg2 w2.1]
            refine ⟨by simp [hpif, hidc], herr, by simp [hidc], hcc, ?_, hct,
              ⟨WF_put _ w1.1 t s1.A.id_counter, w1.2⟩,
              ⟨WF_put _ w2.1 t s2.A.id_counter, w2.2⟩⟩
            intro k
            by_cases hk : k = t
            · subst hk
              show (s1.A.identifier_st.symbol_table.put k s1.A.id_counter).get k
                = (s2.A.identifier_st.symbol_table.put k s2.A.id_counter).get k
              rw [get_put_self _ w1.1 k _, get_put_self _ w2.1 k _, hidc]
            · show (s1.A.identifier_st.symbol_table.put t s1.A.id_counter).get k
                = (s2.A.identifier_st.symbol_table.put t s2.A.id_counter).get k
              rw [get_put_ne _ w1.1 t k _ hk, get_put_ne _ w2.1 t k _ hk]
              exact hidt k
        · by_cases h5 : is_constant t
          · rw [Bool.not_eq_true] at h4
            have hg : s1.A.constant_st.get_constant_value t
                = s2.A.constant_st.get_constant_value t := hct t
            cases hcase : s1.A.constant_st.get_constant_value t with
            | some p =>
              have hg2 : s2.A.constant_st.get_constant_value t = some p := by
                rw [← hg]
                exact hcase
              rw [processToken_const_present n s1 t h1 h2 h3 h4 h5 p hcase,
                processToken_const_present n s2 t h1 h2 h3 h4 h5 p hg2]
              exact ⟨by simp [hpif], herr, hidc, hcc, hidt, hct, w1, w2⟩
            | none =>
              have hg2 : s2.A.constant_st.get_constant_value t = none := by
                rw [← hg]
                exact hcase
              rw [processToken_const_new n s1 t h1 h2 h3 h4 h5 hcase w1.2,
                processToken_const_new n s2 t h1 h2 h3 h4 h5 hg2 w2.2]
              refine ⟨by simp [hpif, hcc], herr, hidc, by simp [hcc], hidt, ?_,
                ⟨w1.1, WF_put _ w1.2 t s1.A.const_counter⟩,
                ⟨w2.1, WF_put _ w2.2 t s2.A.const_counter⟩⟩
              intro k
              by_cases hk : k = t
              · subst hk
                show (s1.A.constant_st.symbol_table.put k s1.A.const_counter).get k
                  = (s2.A.constant_st.symbol_table.put k s2.A.const_counter).get k
                rw [get_put_self _ w1.2 k _, get_put_self _ w2.2 k _, hcc]
              · show (s1.A.constant_st.symbol_table.put t s1.A.const_counter).get k
                  = (s2.A.constant_st.symbol_table.put t s2.A.const_counter).get k
                rw [get_put_ne _ w1.2 t k _ hk, get_put_ne _ w2.2 t k _ hk]
                exact hct k
          · rw [Bool.not_eq_true] at h4 h5
            rw [processToken_invalid n s1 t h1 h2 h3 h4 h5,
              processToken_invalid n s2 t h1 h2 h3 h4 h5]
            exact ⟨hpif, by simp [herr], hidc, hcc, hidt, hct, w1, w2⟩

theorem foldl_scanStep_bisim (lts : List (Nat × String)) (s1 s2 : ScanState)
    (hr : ScanRel s1 s2) : ScanRel (lts.foldl scanStep s1) (lts.foldl scanStep s2) := by
  induction lts generalizing s1 s2 with
  | nil => exact hr
  | cons p rest ih =>
    simp only [List.foldl_cons]
    exact ih _ _ (processToken_bisim p.1 p.2 s1 s2 hr)

theorem analyzeScan_bisim (h1 h2 : String → Nat) (code : String) :
    ScanRel (analyzeScan (LexicalAnalyzer.init h1) code)
      (analyzeScan (LexicalAnalyzer.init h2) code) := by
  rw [analyzeScan_eq, analyzeScan_eq]
  refine foldl_scanStep_bisim (lineTokens code) _ _
    ⟨rfl, rfl, rfl, rfl, ?_, ?_, ⟨WF_init h1, WF_init h1⟩, ⟨WF_init h2, WF_init h2⟩⟩
  · intro k
    show (HashTable.init h1 : HashTable Nat).get k = (HashTable.init h2 : HashTable Nat).get k
    rw [get_init h1 k, get_init h2 k]
  · intro k
    show (HashTable.init h1 : HashTable Nat).get k = (HashTable.init h2 : HashTable Nat).get k
    rw [get_init h1 k, get_init h2 k]

/-- C9: for a fixed source text, `analyze` on two separately
constructed fresh instances — even ones built under different process
hash seeds — produces identical PIF sequences and identical
verdicts. -/
theorem analyze_deterministic (h1 h2 : String → Nat) (code : String) :
    (analyze (LexicalAnalyzer.init h1) code).1.pif
      = (analyze (LexicalAnalyzer.init h2) code).1.pif
    ∧ (analyze (LexicalAnalyzer.init h1) code).2
      = (analyze (LexicalAnalyzer.init h2) code).2 := by
  have hs := analyzeScan_bisim h1 h2 code
  refine ⟨hs.1, ?_⟩
  show (if (analyzeScan (LexicalAnalyzer.init h1) code).errors = [] then "Lexically correct"
      else String.intercalate "\n" ((analyzeScan (LexicalAnalyzer.init h1) code).errors)) = _
  rw [hs.2.1]
  rfl

/-- C2: on a freshly constructed analyzer — whatever the process hash
seed — `analyze` of `let x = 5;` returns the PIF
`[(let,−1), (identifier,0), (=,−1), (constant,0), (;,−1)]` and the
success verdict. -/
theorem analyze_let_example (h : String → Nat) :
    (analyze (LexicalAnalyzer.init h) "let x = 5;").1.pif
      = [("let", -1), ("identifier", 0), ("=", -1), ("constant", 0), (";", -1)]
    ∧ (analyze (LexicalAnalyzer.init h) "let x = 5;").2 = "Lexically correct" := by
  have hs := analyzeScan_bisim h (fun _ => 0) "let x = 5;"
  constructor
  · show (analyzeScan (LexicalAnalyzer.init h) "let x = 5;").A.pif = _
    rw [hs.1]
    decide
  · show (if (analyzeScan (LexicalAnalyzer.init h) "let x = 5;").errors = []
        then "Lexically correct"
        else String.intercalate "\n" ((analyzeScan (LexicalAnalyzer.init h) "let x = 5;").errors))
      = "Lexically correct"
    rw [hs.2.1]
    decide

/-- C10: `analyze` clears only the PIF buffer at entry — the result is
independent of the PIF left by earlier calls — while the symbol tables
and counters carry over: a lexeme interned by an earlier call keeps
its old position in a later call, and a fresh lexeme is numbered from
the carried-over counter, not from 0. -/
theorem analyze_frame (A : LexicalAnalyzer) (code : String)
    (p0 : List (String × Int)) (w : String) (q : Nat)
    (henum : enumLines w = [(0, w)])
    (hstrip : stripStr w = w) (hne : w ≠ "")
    (htok : tokenize w = [w])
    (hclass : classIsIdent w = true) :
    (analyze { A with pif := p0 } code = analyze A code)
    ∧ (A.identifier_st.get_identifier_value w = some q →
        analyze A w = ({ A with pif := [("identifier", (q : Int))] }, "Lexically correct"))
    ∧ (A.identifier_st.get_identifier_value w = none → A.WF →
        analyze A w = ({ A with
            identifier_st := A.identifier_st.add_identifier w A.id_counter,
            id_counter := A.id_counter + 1,
            pif := [("identifier", (A.id_counter : Int))] }, "Lexically correct")) := by
  obtain ⟨h1, h2, h3, h4⟩ := (classIsIdent_iff w).mp hclass
  have hstep : analyzeScan A w = processToken 1 ⟨{ A with pif := [] }, []⟩ w := by
    unfold analyzeScan
    rw [henum]
    simp only [List.foldl_cons, List.foldl_nil, hstrip, if_neg hne]
    unfold processLine
    rw [htok]
    simp only [List.foldl_cons, List.foldl_nil]
  refine ⟨rfl, ?_, ?_⟩
  · intro hget
    have hp := processToken_ident_present 1 ⟨{ A with pif := [] }, []⟩ w h1 h2 h3 h4 q hget
    show ((analyzeScan A w).A,
        if (analyzeScan A w).errors = [] then "Lexically correct"
        else String.intercalate "\n" ((analyzeScan A w).errors)) = _
    rw [hstep, hp]
    rfl
  · intro hget hwf
    have hp := processToken_ident_new 1 ⟨{ A with pif := [] }, []⟩ w h1 h2 h3 h4 hget hwf.1
    show ((analyzeScan A w).A,
        if (analyzeScan A w).errors = [] then "Lexically correct"
        else String.intercalate "\n" ((analyzeScan A w).errors)) = _
    rw [hstep, hp]
    rfl

/-- Witness for C10: after `analyze`-ing `let x = 5;` on a fresh
instance, a second `analyze` of just `x` reuses position 0 from the
first call. -/
theorem analyze_frame_witness :
    enumLines "x" = [(0, "x")]
    ∧ stripStr "x" = "x"
    ∧ tokenize "x" = ["x"]
    ∧ classIsIdent "x" = true
    ∧ ((analyze (LexicalAnalyzer.init (fun _ => 0)) "let x = 5;").1).identifier_st.get_identifier_value
        "x" = some 0
    ∧ analyze ((analyze (LexicalAnalyzer.init (fun _ => 0)) "let x = 5;").1) "x"
        = ({ (analyze (LexicalAnalyzer.init (fun _ => 0)) "let x = 5;").1 with
              pif := [("identifier", 0)] }, "Lexically correct") :=
  ⟨by decide, by decide, by decide, by decide, by decide,
    (analyze_frame ((analyze (LexicalAnalyzer.init (fun _ => 0)) "let x = 5;").1) "" [] "x" 0
      (by decide) (by decide) (by decide) (by decide) (by decide)).2.1 (by decide)⟩

/-! ## First-seen interning order (C1) -/

theorem indexOf_cons_of_ne {a b : String} (l : List String) (h : b ≠ a) :
    List.indexOf a (b :: l) = List.indexOf a l + 1 := by
  rw [List.indexOf_cons]
  have hb : (b == a) = false := beq_false_of_ne h
  rw [hb]
  rfl

theorem indexOf_append_mem {a : String} (l1 l2 : List String) (h : a ∈ l1) :
    List.indexOf a (l1 ++ l2) = List.indexOf a l1 := by
  induction l1 with
  | nil => simp at h
  | cons b rest ih =>
    by_cases hb : b = a
    · subst hb
      rw [List.cons_append, List.indexOf_cons, List.indexOf_cons]
      rw [beq_self_eq_true b]
      rfl
    · have hr : a ∈ rest := by
        rcases List.mem_cons.mp h with hc | hc
        · exact absurd hc.symm hb
        · exact hc
      rw [List.cons_append, indexOf_cons_of_ne _ hb, indexOf_cons_of_ne _ hb, ih hr]

theorem indexOf_append_self (w : String) (acc : List String) (h : w ∉ acc) :
    List.indexOf w (acc ++ [w]) = acc.length := by
  induction acc with
  | nil => simp [List.indexOf_cons_self]
  | cons a rest ih =>
    have ha : a ≠ w := fun hc => h (hc ▸ List.mem_cons_self a rest)
    have hr : w ∉ rest := fun hc => h (List.mem_cons_of_mem a hc)
    rw [List.cons_append, indexOf_cons_of_ne _ ha, ih hr]
    rfl

theorem firstSeenAux_extends (l : List String) :
    ∀ acc : List String, ∃ ext, firstSeenAux acc l = acc ++ ext := by
  induction l with
  | nil => exact fun acc => ⟨[], by simp [firstSeenAux]⟩
  | cons w ws ih =>
    intro acc
    show ∃ ext, firstSeenAux (if w ∈ acc then acc else acc ++ [w]) ws = acc ++ ext
    by_cases hw : w ∈ acc
    · rw [if_pos hw]
      exact ih acc
    · rw [if_neg hw]
      obtain ⟨ext, hext⟩ := ih (acc ++ [w])
      exact ⟨[w] ++ ext, by rw [hext, List.append_assoc]⟩

theorem mem_firstSeenAux (l : List String) :
    ∀ (acc : List String) (w0 : String), w0 ∈ firstSeenAux acc l ↔ w0 ∈ acc ∨ w0 ∈ l := by
  induction l with
  | nil => simp [firstSeenAux]
  | cons w ws ih =>
    intro acc w0
    show w0 ∈ firstSeenAux (if w ∈ acc then acc else acc ++ [w]) ws ↔ _
    by_cases hw : w ∈ acc
    · rw [if_pos hw, ih acc w0]
      constructor
      · rintro (h | h)
        · exact Or.inl h
        · exact Or.inr (List.mem_cons_of_mem w h)
      · rintro (h | h)
        · exact Or.inl h
        · rcases List.mem_cons.mp h with hc | hc
          · exact Or.inl (hc ▸ hw)
          · exact Or.inr hc
    · rw [if_neg hw, ih (acc ++ [w]) w0]
      simp only [List.mem_append, List.mem_singleton, List.mem_cons]
      tauto

theorem nodup_firstSeenAux (l : List String) :
    ∀ acc : List String, acc.Nodup → (firstSeenAux acc l).Nodup := by
  induction l with
  | nil => exact fun acc h => h
  | cons w ws ih =>
    intro acc hacc
    show (firstSeenAux (if w ∈ acc then acc else acc ++ [w]) ws).Nodup
    by_cases hw : w ∈ acc
    · rw [if_pos hw]
      exact ih acc hacc
    · rw [if_neg hw]
      refine ih (acc ++ [w]) ?_
      refine List.Nodup.append hacc (List.nodup_singleton w) ?_
      intro a ha hb
      rw [List.mem_singleton] at hb
      exact hw (hb ▸ ha)

theorem length_eq_of_same_mem {l1 l2 : List String} (h1 : l1.Nodup) (h2 : l2.Nodup)
    (hm : ∀ a, a ∈ l1 ↔ a ∈ l2) : l1.length = l2.length := by
  rw [← List.toFinset_card_of_nodup h1, ← List.toFinset_card_of_nodup h2]
  congr 1
  ext a
  rw [List.mem_toFinset, List.mem_toFinset]
  exact hm a

theorem firstSeen_length_eq_card (l : List String) :
    (firstSeen l).length = l.toFinset.card := by
  show (firstSeenAux [] l).length = l.toFinset.card
  rw [← List.toFinset_card_of_nodup (nodup_firstSeenAux l [] List.nodup_nil)]
  congr 1
  ext a
  rw [List.mem_toFinset, List.mem_toFinset, mem_firstSeenAux]
  simp

theorem identsOf_cons (p : Nat × String) (rest : List (Nat × String)) :
    identsOf (p :: rest)
      = if classIsIdent p.2 then p.2 :: identsOf rest else identsOf rest := by
  unfold identsOf
  rw [List.filter_cons]
  by_cases hc : classIsIdent p.2
  · rw [if_pos hc, if_pos hc]
    rfl
  · rw [if_neg hc, if_neg hc]

theorem constsOf_cons (p : Nat × String) (rest : List (Nat × String)) :
    constsOf (p :: rest)
      = if classIsConst p.2 then p.2 :: constsOf rest else constsOf rest := by
  unfold constsOf
  rw [List.filter_cons]
  by_cases hc : classIsConst p.2
  · rw [if_pos hc, if_pos hc]
    rfl
  · rw [if_neg hc, if_neg hc]

theorem classIsIdent_eq_false (t : String)
    (h : lowerStr t ∈ reserved_words ∨ t ∈ operators ∨ t ∈ separators
      ∨ is_identifier t = false) : classIsIdent t = false := by
  refine Bool.eq_false_iff.mpr (fun hc => ?_)
  obtain ⟨n1, n2, n3, n4⟩ := (classIsIdent_iff t).mp hc
  rcases h with h | h | h | h
  · exact n1 h
  · exact n2 h
  · exact n3 h
  · rw [h] at n4
    exact absurd n4 (by decide)

theorem classIsConst_eq_false (t : String)
    (h : lowerStr t ∈ reserved_words ∨ t ∈ operators ∨ t ∈ separators
      ∨ is_identifier t = true ∨ is_constant t = false) : classIsConst t = false := by
  refine Bool.eq_false_iff.mpr (fun hc => ?_)
  obtain ⟨n1, n2, n3, n4, n5⟩ := (classIsConst_iff t).mp hc
  rcases h with h | h | h | h | h
  · exact n1 h
  · exact n2 h
  · exact n3 h
  · rw [h] at n4
    exact absurd n4 (by decide)
  · rw [h] at n5
    exact absurd n5 (by decide)

theorem reserved_entry_neutral :
    ∀ x ∈ reserved_words, x ≠ "identifier" ∧ x ≠ "constant" := by decide

theorem operators_entry_neutral :
    ∀ x ∈ operators, x ≠ "identifier" ∧ x ≠ "constant" := by decide

theorem separators_entry_neutral :
    ∀ x ∈ separators, x ≠ "identifier" ∧ x ≠ "constant" := by decide

theorem filter_append_single (p : (String × Int) → Bool) (l : List (String × Int))
    (e : String × Int) :
    (l ++ [e]).filter p = l.filter p ++ (if p e then [e] else []) := by
  rw [List.filter_append]
  congr 1
  rw [List.filter_cons]
  by_cases hp : p e
  · rw [if_pos hp, if_pos hp]
    rfl
  · rw [if_neg hp, if_neg hp]
    rfl

theorem pifIdents_append_neutral (l : List (String × Int)) (e : String × Int)
    (h : ¬e.1 = "identifier") : pifIdents (l ++ [e]) = pifIdents l := by
  show (l ++ [e]).filter _ = l.filter _
  rw [filter_append_single]
  simp [h]

theorem pifIdents_append_ident (l : List (String × Int)) (v : Int) :
    pifIdents (l ++ [("identifier", v)]) = pifIdents l ++ [("identifier", v)] := by
  show (l ++ [("identifier", v)]).filter _ = l.filter _ ++ _
  rw [filter_append_single]
  simp

theorem pifConsts_append_neutral (l : List (String × Int)) (e : String × Int)
    (h : ¬e.1 = "constant") : pifConsts (l ++ [e]) = pifConsts l := by
  show (l ++ [e]).filter _ = l.filter _
  rw [filter_append_single]
  simp [h]

theorem pifConsts_append_const (l : List (String × Int)) (v : Int) :
    pifConsts (l ++ [("constant", v)]) = pifConsts l ++ [("constant", v)] := by
  show (l ++ [("constant", v)]).filter _ = l.filter _ ++ _
  rw [filter_append_single]
  simp

theorem IdInv_congr {s1 s2 : ScanState} (ws : List String)
    (h1 : s2.A.identifier_st = s1.A.identifier_st)
    (h2 : s2.A.id_counter = s1.A.id_counter)
    (hInv : IdInv s1 ws) : IdInv s2 ws := by
  unfold IdInv at hInv ⊢
  rw [h1, h2]
  exact hInv

theorem CInv_congr {s1 s2 : ScanState} (cs : List String)
    (h1 : s2.A.constant_st = s1.A.constant_st)
    (h2 : s2.A.const_counter = s1.A.const_counter)
    (hInv : CInv s1 cs) : CInv s2 cs := by
  unfold CInv at hInv ⊢
  rw [h1, h2]
  exact hInv

theorem identsOf_cons_pos (p : Nat × String) (rest : List (Nat × String))
    (h : classIsIdent p.2 = true) : identsOf (p :: rest) = p.2 :: identsOf rest := by
  rw [identsOf_cons, h]
  rfl

theorem identsOf_cons_neg (p : Nat × String) (rest : List (Nat × String))
    (h : classIsIdent p.2 = false) : identsOf (p :: rest) = identsOf rest := by
  rw [identsOf_cons, h]
  rfl

theorem constsOf_cons_pos (p : Nat × String) (rest : List (Nat × String))
    (h : classIsConst p.2 = true) : constsOf (p :: rest) = p.2 :: constsOf rest := by
  rw [constsOf_cons, h]
  rfl

theorem constsOf_cons_neg (p : Nat × String) (rest : List (Nat × String))
    (h : classIsConst p.2 = false) : constsOf (p :: rest) = constsOf rest := by
  rw [constsOf_cons, h]
  rfl

/-- The central interning trace: starting from any state satisfying
the two table invariants, the scan extends the first-seen lists, and
the identifier/constant PIF entries it appends are exactly the
classified lexemes paired with their first-seen indices. -/
theorem scan_trace (lts : List (Nat × String)) :
    ∀ (s : ScanState) (ws cs : List String), IdInv s ws → CInv s cs →
      IdInv (lts.foldl scanStep s) (firstSeenAux ws (identsOf lts))
      ∧ CInv (lts.foldl scanStep s) (firstSeenAux cs (constsOf lts))
      ∧ pifIdents (lts.foldl scanStep s).A.pif
          = pifIdents s.A.pif
            ++ (identsOf lts).map (fun w0 =>
                (("identifier" : String),
                  ((List.indexOf w0 (firstSeenAux ws (identsOf lts))) : Int)))
      ∧ pifConsts (lts.foldl scanStep s).A.pif
          = pifConsts s.A.pif
            ++ (constsOf lts).map (fun w0 =>
                (("constant" : String),
                  ((List.indexOf w0 (firstSeenAux cs (constsOf lts))) : Int))) := by
  induction lts with
  | nil =>
    intro s ws cs hId hC
    have hid0 : identsOf ([] : List (Nat × String)) = [] := rfl
    have hc0 : constsOf ([] : List (Nat × String)) = [] := rfl
    exact ⟨hId, hC, by rw [hid0]; simp, by rw [hc0]; simp⟩
  | cons p rest ih =>
    intro s ws cs hId hC
    have hfold : (p :: rest).foldl scanStep s = rest.foldl scanStep (processToken p.1 s p.2) :=
      rfl
    rw [hfold]
    by_cases h1 : lowerStr p.2 ∈ reserved_words
    · have hcid := classIsIdent_eq_false p.2 (Or.inl h1)
      have hccon := classIsConst_eq_false p.2 (Or.inl h1)
      have hne := reserved_entry_neutral (lowerStr p.2) h1
      rw [identsOf_cons_neg p rest hcid, constsOf_cons_neg p rest hccon,
        processToken_reserved p.1 s p.2 h1]
      obtain ⟨g1, g2, g3, g4⟩ :=
        ih { s with A := { s.A with pif := s.A.pif ++ [(lowerStr p.2, -1)] } } ws cs
          (IdInv_congr ws rfl rfl hId) (CInv_congr cs rfl rfl hC)
      refine ⟨g1, g2, ?_, ?_⟩
      · rw [g3]
        show pifIdents (s.A.pif ++ [(lowerStr p.2, -1)]) ++ _ = _
        rw [pifIdents_append_neutral _ _ hne.1]
      · rw [g4]
        show pifConsts (s.A.pif ++ [(lowerStr p.2, -1)]) ++ _ = _
        rw [pifConsts_append_neutral _ _ hne.2]
    · by_cases h2 : p.2 ∈ operators
      · have hcid := classIsIdent_eq_false p.2 (Or.inr (Or.inl h2))
        have hccon := classIsConst_eq_false p.2 (Or.inr (Or.inl h2))
        have hne := operators_entry_neutral p.2 h2
        rw [identsOf_cons_neg p rest hcid, constsOf_cons_neg p rest hccon,
          processToken_operator p.1 s p.2 h1 h2]
        obtain ⟨g1, g2, g3, g4⟩ :=
          ih { s with A := { s.A with pif := s.A.pif ++ [(p.2, -1)] } } ws cs
            (IdInv_congr ws rfl rfl hId) (CInv_congr cs rfl rfl hC)
        refine ⟨g1, g2, ?_, ?_⟩
        · rw [g3]
          show pifIdents (s.A.pif ++ [(p.2, -1)]) ++ _ = _
          rw [pifIdents_append_neutral _ _ hne.1]
        · rw [g4]
          show pifConsts (s.A.pif ++ [(p.2, -1)]) ++ _ = _
          rw [pifConsts_append_neutral _ _ hne.2]
      · by_cases h3 : p.2 ∈ separators
        · have hcid := classIsIdent_eq_false p.2 (Or.inr (Or.inr (Or.inl h3)))
          have hccon := classIsConst_eq_false p.2 (Or.inr (Or.inr (Or.inl h3)))
          have hne := separators_entry_neutral p.2 h3
          rw [identsOf_cons_neg p rest hcid, constsOf_cons_neg p rest hccon,
            processToken_separator p.1 s p.2 h1 h2 h3]
          obtain ⟨g1, g2, g3, g4⟩ :=
            ih { s with A := { s.A with pif := s.A.pif ++ [(p.2, -1)] } } ws cs
              (IdInv_congr ws rfl rfl hId) (CInv_congr cs rfl rfl hC)
          refine ⟨g1, g2, ?_, ?_⟩
          · rw [g3]
            show pifIdents (s.A.pif ++ [(p.2, -1)]) ++ _ = _
            rw [pifIdents_append_neutral _ _ hne.1]
          · rw [g4]
            show pifConsts (s.A.pif ++ [(p.2, -1)]) ++ _ = _
            rw [pifConsts_append_neutral _ _ hne.2]
        · by_cases h4 : is_identifier p.2
          · have hcid : classIsIdent p.2 = true := (classIsIdent_iff p.2).mpr ⟨h1, h2, h3, h4⟩
            have hccon := classIsConst_eq_false p.2 (Or.inr (Or.inr (Or.inr (Or.inl h4))))
            rw [identsOf_cons_pos p rest hcid, constsOf_cons_neg p rest hccon]
            by_cases hw : p.2 ∈ ws
            · have hget : s.A.identifier_st.get_identifier_value p.2
                  = some (List.indexOf p.2 ws) := hId.1 p.2 hw
              rw [processToken_ident_present p.1 s p.2 h1 h2 h3 h4 _ hget]
              have hfs : firstSeenAux ws (p.2 :: identsOf rest)
                  = firstSeenAux ws (identsOf rest) := by
                show firstSeenAux (if p.2 ∈ ws then ws else ws ++ [p.2]) (identsOf rest) = _
                rw [if_pos hw]
              rw [hfs]
              obtain ⟨g1, g2, g3, g4⟩ :=
                ih { s with A := { s.A with
                      pif := s.A.pif ++ [("identifier", (List.indexOf p.2 ws : Int))] } } ws cs
                  (IdInv_congr ws rfl rfl hId) (CInv_congr cs rfl rfl hC)
              refine ⟨g1, g2, ?_, ?_⟩
              · rw [g3]
                show pifIdents (s.A.pif ++ [("identifier", (List.indexOf p.2 ws : Int))]) ++ _
                    = _
                rw [pifIdents_append_ident]
                obtain ⟨ext, hext⟩ := firstSeenAux_extends (identsOf rest) ws
                rw [hext, List.map_cons, indexOf_append_mem _ _ hw, List.append_assoc]
                rfl
              · rw [g4]
                show pifConsts (s.A.pif ++ [("identifier", (List.indexOf p.2 ws : Int))]) ++ _
                    = _
                rw [pifConsts_append_neutral _ ("identifier", (List.indexOf p.2 ws : Int))
                  (show ("identifier" : String) ≠ "constant" by decide)]
            · have hget := hId.2.1 p.2 hw
              have hwf := hId.2.2.2.2
              rw [processToken_ident_new p.1 s p.2 h1 h2 h3 h4 hget hwf]
              have hfs : firstSeenAux ws (p.2 :: identsOf rest)
                  = firstSeenAux (ws ++ [p.2]) (identsOf rest) := by
                show firstSeenAux (if p.2 ∈ ws then ws else ws ++ [p.2]) (identsOf rest) = _
                rw [if_neg hw]
              rw [hfs]
              have hId2 : IdInv { s with A := { s.A with
                    identifier_st := s.A.identifier_st.add_identifier p.2 s.A.id_counter,
                    id_counter := s.A.id_counter + 1,
                    pif := s.A.pif ++ [("identifier", (s.A.id_counter : Int))] } }
                  (ws ++ [p.2]) := by
                refine ⟨?_, ?_, ?_, ?_, ?_⟩
                · intro w0 hw0
                  show (s.A.identifier_st.symbol_table.put p.2 s.A.id_counter).get w0
                      = some (List.indexOf w0 (ws ++ [p.2]))
                  rcases List.mem_append.mp hw0 with hin | hin
                  · have hne0 : w0 ≠ p.2 := fun hc => hw (hc ▸ hin)
                    rw [get_put_ne _ hwf p.2 w0 _ hne0, indexOf_append_mem _ _ hin]
                    exact hId.1 w0 hin
                  · rw [List.mem_singleton] at hin
                    subst hin
                    rw [get_put_self _ hwf p.2 _, indexOf_append_self p.2 ws hw, hId.2.2.1]
                · intro w0 hw0
                  have hne0 : w0 ≠ p.2 := fun hc =>
                    hw0 (List.mem_append.mpr (Or.inr (List.mem_singleton.mpr hc)))
                  have hnin : w0 ∉ ws := fun hc => hw0 (List.mem_append.mpr (Or.inl hc))
                  show (s.A.identifier_st.symbol_table.put p.2 s.A.id_counter).get w0 = none
                  rw [get_put_ne _ hwf p.2 w0 _ hne0]
                  exact hId.2.1 w0 hnin
                · show s.A.id_counter + 1 = (ws ++ [p.2]).length
                  rw [hId.2.2.1, List.length_append]
                  rfl
                · exact List.Nodup.append hId.2.2.2.1 (List.nodup_singleton p.2)
                    (fun a ha hb => hw ((List.mem_singleton.mp hb) ▸ ha))
                · exact WF_put _ hwf p.2 s.A.id_counter
              obtain ⟨g1, g2, g3, g4⟩ := ih _ (ws ++ [p.2]) cs hId2 (CInv_congr cs rfl rfl hC)
              refine ⟨g1, g2, ?_, ?_⟩
              · rw [g3]
                show pifIdents (s.A.pif ++ [("identifier", (s.A.id_counter : Int))]) ++ _ = _
                rw [pifIdents_append_ident]
                obtain ⟨ext, hext⟩ := firstSeenAux_extends (identsOf rest) (ws ++ [p.2])
                rw [hext, List.map_cons]
                have hidx : List.indexOf p.2 ((ws ++ [p.2]) ++ ext) = ws.length := by
                  rw [indexOf_append_mem _ _
                    (List.mem_append.mpr (Or.inr (List.mem_singleton.mpr rfl)))]
                  exact indexOf_append_self p.2 ws hw
                rw [hidx, hId.2.2.1, List.append_assoc]
                rfl
              · rw [g4]
                show pifConsts (s.A.pif ++ [("identifier", (s.A.id_counter : Int))]) ++ _ = _
                rw [pifConsts_append_neutral _ ("identifier", (s.A.id_counter : Int))
                  (show ("identifier" : String) ≠ "constant" by decide)]
          · by_cases h5 : is_constant p.2
            · rw [Bool.not_eq_true] at h4
              have hcid := classIsIdent_eq_false p.2 (Or.inr (Or.inr (Or.inr h4)))
              have hccon : classIsConst p.2 = true :=
                (classIsConst_iff p.2).mpr ⟨h1, h2, h3, h4, h5⟩
              rw [identsOf_cons_neg p rest hcid, constsOf_cons_pos p rest hccon]
              by_cases hw : p.2 ∈ cs
              · have hget : s.A.constant_st.get_constant_value p.2
                    = some (List.indexOf p.2 cs) := hC.1 p.2 hw
                rw [processToken_const_present p.1 s p.2 h1 h2 h3 h4 h5 _ hget]
                have hfs : firstSeenAux cs (p.2 :: constsOf rest)
                    = firstSeenAux cs (constsOf rest) := by
                  show firstSeenAux (if p.2 ∈ cs then cs else cs ++ [p.2]) (constsOf rest) = _
                  rw [if_pos hw]
                rw [hfs]
                obtain ⟨g1, g2, g3, g4⟩ :=
                  ih { s with A := { s.A with
                        pif := s.A.pif ++ [("constant", (List.indexOf p.2 cs : Int))] } } ws cs
                    (IdInv_congr ws rfl rfl hId) (CInv_congr cs rfl rfl hC)
                refine ⟨g1, g2, ?_, ?_⟩
                · rw [g3]
                  show pifIdents (s.A.pif ++ [("constant", (List.indexOf p.2 cs : Int))]) ++ _
                      = _
                  rw [pifIdents_append_neutral _ ("constant", (List.indexOf p.2 cs : Int))
                    (show ("constant" : String) ≠ "identifier" by decide)]
                · rw [g4]
                  show pifConsts (s.A.pif ++ [("constant", (List.indexOf p.2 cs : Int))]) ++ _
                      = _
                  rw [pifConsts_append_const]
                  obtain ⟨ext, hext⟩ := firstSeenAux_extends (constsOf rest) cs
                  rw [hext, List.map_cons, indexOf_append_mem _ _ hw, List.append_assoc]
                  rfl
              · have hget := hC.2.1 p.2 hw
                have hwf := hC.2.2.2.2
                rw [processToken_const_new p.1 s p.2 h1 h2 h3 h4 h5 hget hwf]
                have hfs : firstSeenAux cs (p.2 :: constsOf rest)
                    = firstSeenAux (cs ++ [p.2]) (constsOf rest) := by
                  show firstSeenAux (if p.2 ∈ cs then cs else cs ++ [p.2]) (constsOf rest) = _
                  rw [if_neg hw]
                rw [hfs]
                have hC2 : CInv { s with A := { s.A with
                      constant_st := s.A.constant_st.add_constant p.2 s.A.const_counter,
                      const_counter := s.A.const_counter + 1,
                      pif := s.A.pif ++ [("constant", (s.A.const_counter : Int))] } }
                    (cs ++ [p.2]) := by
                  refine ⟨?_, ?_, ?_, ?_, ?_⟩
                  · intro w0 hw0
                    show (s.A.constant_st.symbol_table.put p.2 s.A.const_counter).get w0
                        = some (List.indexOf w0 (cs ++ [p.2]))
                    rcases List.mem_append.mp hw0 with hin | hin
                    · have hne0 : w0 ≠ p.2 := fun hc => hw (hc ▸ hin)
                      rw [get_put_ne _ hwf p.2 w0 _ hne0, indexOf_append_mem _ _ hin]
                      exact hC.1 w0 hin
                    · rw [List.mem_singleton] at hin
                      subst hin
                      rw [get_put_self _ hwf p.2 _, indexOf_append_self p.2 cs hw, hC.2.2.1]
                  · intro w0 hw0
                    have hne0 : w0 ≠ p.2 := fun hc =>
                      hw0 (List.mem_append.mpr (Or.inr (List.mem_singleton.mpr hc)))
                    have hnin : w0 ∉ cs := fun hc => hw0 (List.mem_append.mpr (Or.inl hc))
                    show (s.A.constant_st.symbol_table.put p.2 s.A.const_counter).get w0 = none
                    rw [get_put_ne _ hwf p.2 w0 _ hne0]
                    exact hC.2.1 w0 hnin
                  · show s.A.const_counter + 1 = (cs ++ [p.2]).length
                    rw [hC.2.2.1, List.length_append]
                    rfl
                  · exact List.Nodup.append hC.2.2.2.1 (List.nodup_singleton p.2)
                      (fun a ha hb => hw ((List.mem_singleton.mp hb) ▸ ha))
                  · exact WF_put _ hwf p.2 s.A.const_counter
                obtain ⟨g1, g2, g3, g4⟩ :=
                  ih { s with A := { s.A with
                        constant_st := s.A.constant_st.add_constant p.2 s.A.const_counter,
                        const_counter := s.A.const_counter + 1,
                        pif := s.A.pif ++ [("constant", (s.A.const_counter : Int))] } }
                    ws (cs ++ [p.2]) (IdInv_congr ws rfl rfl hId) hC2
                refine ⟨g1, g2, ?_, ?_⟩
                · rw [g3]
                  show pifIdents (s.A.pif ++ [("constant", (s.A.const_counter : Int))]) ++ _ = _
                  rw [pifIdents_append_neutral _ ("constant", (s.A.const_counter : Int))
                    (show ("constant" : String) ≠ "identifier" by decide)]
                · rw [g4]
                  show pifConsts (s.A.pif ++ [("constant", (s.A.const_counter : Int))]) ++ _ = _
                  rw [pifConsts_append_const]
                  obtain ⟨ext, hext⟩ := firstSeenAux_extends (constsOf rest) (cs ++ [p.2])
                  rw [hext, List.map_cons]
                  have hidx : List.indexOf p.2 ((cs ++ [p.2]) ++ ext) = cs.length := by
                    rw [indexOf_append_mem _ _
                      (List.mem_append.mpr (Or.inr (List.mem_singleton.mpr rfl)))]
                    exact indexOf_append_self p.2 cs hw
                  rw [hidx, hC.2.2.1, List.append_assoc]
                  rfl
            · rw [Bool.not_eq_true] at h4 h5
              have hcid := classIsIdent_eq_false p.2 (Or.inr (Or.inr (Or.inr h4)))
              have hccon := classIsConst_eq_false p.2 (Or.inr (Or.inr (Or.inr (Or.inr h5))))
              rw [identsOf_cons_neg p rest hcid, constsOf_cons_neg p rest hccon,
                processToken_invalid p.1 s p.2 h1 h2 h3 h4 h5]
              obtain ⟨g1, g2, g3, g4⟩ :=
                ih { s with errors := s.errors ++ [errMsg p.1 p.2] } ws cs
                  (IdInv_congr ws rfl rfl hId) (CInv_congr cs rfl rfl hC)
              exact ⟨g1, g2, g3, g4⟩

/-- C1: on a fresh analyzer, every identifier (and constant) PIF entry
carries a position that is a function of the lexeme's spelling alone —
its index in the first-seen list — so identically-spelled occurrences
always share one symbol-table position; and after the call the
identifier table's distinct-key count equals the number of distinct
identifier spellings in the source. -/
theorem analyze_ident_dedup (h : String → Nat) (code : String) :
    pifIdents (analyze (LexicalAnalyzer.init h) code).1.pif
      = (identTokens code).map (fun w0 =>
          (("identifier" : String),
            ((List.indexOf w0 (firstSeen (identTokens code))) : Int)))
    ∧ pifConsts (analyze (LexicalAnalyzer.init h) code).1.pif
      = (constTokens code).map (fun w0 =>
          (("constant" : String),
            ((List.indexOf w0 (firstSeen (constTokens code))) : Int)))
    ∧ (analyze (LexicalAnalyzer.init h) code).1.identifier_st.symbol_table.distinctKeyCount
        = (identTokens code).toFinset.card := by
  have h0Id : IdInv ⟨{ LexicalAnalyzer.init h with pif := [] }, []⟩ [] :=
    ⟨fun w hw => absurd hw (List.not_mem_nil w), fun w _ => get_init h w, rfl,
      List.nodup_nil, WF_init h⟩
  have h0C : CInv ⟨{ LexicalAnalyzer.init h with pif := [] }, []⟩ [] :=
    ⟨fun w hw => absurd hw (List.not_mem_nil w), fun w _ => get_init h w, rfl,
      List.nodup_nil, WF_init h⟩
  obtain ⟨g1, g2, g3, g4⟩ := scan_trace (lineTokens code) _ [] [] h0Id h0C
  have hscan : analyzeScan (LexicalAnalyzer.init h) code
      = (lineTokens code).foldl scanStep ⟨{ LexicalAnalyzer.init h with pif := [] }, []⟩ :=
    analyzeScan_eq (LexicalAnalyzer.init h) code
  refine ⟨?_, ?_, ?_⟩
  · show pifIdents (analyzeScan (LexicalAnalyzer.init h) code).A.pif = _
    rw [hscan, g3]
    rfl
  · show pifConsts (analyzeScan (LexicalAnalyzer.init h) code).A.pif = _
    rw [hscan, g4]
    rfl
  · show ((analyzeScan (LexicalAnalyzer.init h) code).A.identifier_st.symbol_table).distinctKeyCount
        = _
    rw [hscan]
    have hwf := g1.2.2.2.2
    have hnodupWs := g1.2.2.2.1
    have hkeys := keys_nodup _ hwf
    have hmem : ∀ a : String,
        a ∈ ((lineTokens code).foldl scanStep
            ⟨{ LexicalAnalyzer.init h with pif := [] },
              []⟩).A.identifier_st.symbol_table.keys
          ↔ a ∈ firstSeenAux [] (identsOf (lineTokens code)) := by
      intro a
      constructor
      · intro ha
        by_contra hnin
        have := g1.2.1 a hnin
        exact (get_eq_none_iff _ hwf a).mp this ha
      · intro ha
        have hsome : ((lineTokens code).foldl scanStep
            ⟨{ LexicalAnalyzer.init h with pif := [] },
              []⟩).A.identifier_st.symbol_table.get a
            = some (List.indexOf a (firstSeenAux [] (identsOf (lineTokens code)))) :=
          g1.1 a ha
        by_contra hnin
        rw [(get_eq_none_iff _ hwf a).mpr hnin] at hsome
        exact Option.noConfusion hsome
    show ((((lineTokens code).foldl scanStep
        ⟨{ LexicalAnalyzer.init h with pif := [] },
          []⟩).A.identifier_st.symbol_table.keys).dedup).length = _
    rw [List.Nodup.dedup hkeys, length_eq_of_same_mem hkeys hnodupWs hmem]
    exact firstSeen_length_eq_card (identTokens code)

/-! ## tokenize: recursion equations and string-literal handling (C6) -/

theorem replaceAllF_fuel_irrel (pat repl : List Char) :
    ∀ (f1 : Nat) (f2 : Nat) (s : List Char), s.length ≤ f1 → s.length ≤ f2 →
      replaceAllF pat repl f1 s = replaceAllF pat repl f2 s := by
  intro f1
  induction f1 with
  | zero =>
    intro f2 s h1 h2
    have hs : s = [] := List.length_eq_zero.mp (Nat.le_zero.mp h1)
    subst hs
    cases f2 with
    | zero => rfl
    | succ n => rfl
  | succ n ih =>
    intro f2 s h1 h2
    cases s with
    | nil =>
      cases f2 with
      | zero => rfl
      | succ m => rfl
    | cons c rest =>
      cases f2 with
      | zero => simp at h2
      | succ m =>
        show (if pat ≠ [] ∧ pat.isPrefixOf (c :: rest) then
            repl ++ replaceAllF pat repl n ((c :: rest).drop pat.length)
          else c :: replaceAllF pat repl n rest) = (if pat ≠ [] ∧ pat.isPrefixOf (c :: rest) then
            repl ++ replaceAllF pat repl m ((c :: rest).drop pat.length)
          else c :: replaceAllF pat repl m rest)
        by_cases hc : pat ≠ [] ∧ pat.isPrefixOf (c :: rest)
        · rw [if_pos hc, if_pos hc]
          have hlen : ((c :: rest).drop pat.length).length ≤ rest.length := by
            rw [List.length_drop, List.length_cons]
            have : 0 < pat.length := List.length_pos.mpr hc.1
            omega
          rw [ih _ _ (le_trans hlen (Nat.le_of_succ_le_succ h1))
            (le_trans hlen (Nat.le_of_succ_le_succ h2))]
        · rw [if_neg hc, if_neg hc]
          rw [ih _ _ (Nat.le_of_succ_le_succ h1) (Nat.le_of_succ_le_succ h2)]

theorem replaceAll_cons (pat repl : List Char) (c : Char) (rest : List Char) :
    replaceAll pat repl (c :: rest)
      = (if pat ≠ [] ∧ pat.isPrefixOf (c :: rest) then
          repl ++ replaceAll pat repl ((c :: rest).drop pat.length)
        else c :: replaceAll pat repl rest) := by
  show replaceAllF pat repl (rest.length + 1) (c :: rest) = _
  show (if pat ≠ [] ∧ pat.isPrefixOf (c :: rest) then
      repl ++ replaceAllF pat repl rest.length ((c :: rest).drop pat.length)
    else c :: replaceAllF pat repl rest.length rest) = _
  by_cases hc : pat ≠ [] ∧ pat.isPrefixOf (c :: rest)
  · rw [if_pos hc, if_pos hc]
    have hlen : ((c :: rest).drop pat.length).length ≤ rest.length := by
      rw [List.length_drop, List.length_cons]
      have : 0 < pat.length := List.length_pos.mpr hc.1
      omega
    rw [replaceAllF_fuel_irrel pat repl rest.length _ _ hlen (le_refl _)]
    rfl
  · rw [if_neg hc, if_neg hc]
    rfl

theorem findStringLitsF_fuel_irrel :
    ∀ (f1 : Nat) (f2 : Nat) (s : List Char), s.length ≤ f1 → s.length ≤ f2 →
      findStringLitsF f1 s = findStringLitsF f2 s := by
  intro f1
  induction f1 with
  | zero =>
    intro f2 s h1 h2
    have hs : s = [] := List.length_eq_zero.mp (Nat.le_zero.mp h1)
    subst hs
    cases f2 with
    | zero => rfl
    | succ n => rfl
  | succ n ih =>
    intro f2 s h1 h2
    cases s with
    | nil =>
      cases f2 with
      | zero => rfl
      | succ m => rfl
    | cons c rest =>
      cases f2 with
      | zero => simp at h2
      | succ m =>
        show (if c = '"' then _ else findStringLitsF n rest)
          = (if c = '"' then _ else findStringLitsF m rest)
        by_cases hc : c = '"'
        · rw [if_pos hc, if_pos hc]
          by_cases hl : (rest.takeWhile (fun d => d ≠ '"')).length < rest.length
          · rw [if_pos hl, if_pos hl]
            have hlen : (rest.drop ((rest.takeWhile (fun d => d ≠ '"')).length + 1)).length
                ≤ rest.length := by
              rw [List.length_drop]
              omega
            rw [ih _ _ (le_trans hlen (Nat.le_of_succ_le_succ h1))
              (le_trans hlen (Nat.le_of_succ_le_succ h2))]
          · rw [if_neg hl, if_neg hl]
        · rw [if_neg hc, if_neg hc]
          rw [ih _ _ (Nat.le_of_succ_le_succ h1) (Nat.le_of_succ_le_succ h2)]

theorem findStringLits_cons (c : Char) (rest : List Char) :
    findStringLits (c :: rest)
      = (if c = '"' then
          (if (rest.takeWhile (fun d => d ≠ '"')).length < rest.length then
            ('"' :: ((rest.takeWhile (fun d => d ≠ '"')) ++ ['"']))
              :: findStringLits (rest.drop ((rest.takeWhile (fun d => d ≠ '"')).length + 1))
          else [])
        else findStringLits rest) := by
  show findStringLitsF (rest.length + 1) (c :: rest) = _
  show (if c = '"' then _ else findStringLitsF rest.length rest) = _
  by_cases hc : c = '"'
  · rw [if_pos hc, if_pos hc]
    by_cases hl : (rest.takeWhile (fun d => d ≠ '"')).length < rest.length
    · rw [if_pos hl, if_pos hl]
      have hlen : (rest.drop ((rest.takeWhile (fun d => d ≠ '"')).length + 1)).length
          ≤ rest.length := by
        rw [List.length_drop]
        omega
      rw [findStringLitsF_fuel_irrel rest.length _ _ hlen (le_refl _)]
      rfl
    · rw [if_neg hl, if_neg hl]
  · rw [if_neg hc, if_neg hc]
    rfl

theorem isPrefixOf_self_append (pat rest : List Char) :
    pat.isPrefixOf (pat ++ rest) = true := by
  induction pat with
  | nil =>
    cases rest with
    | nil => rfl
    | cons c cs => rfl
  | cons a as ih =>
    show (a == a && as.isPrefixOf (as ++ rest)) = true
    rw [beq_self_eq_true, ih]
    rfl

theorem replaceAll_no_head (ph : Char) (patTail repl s : List Char)
    (h : ph ∉ s) : replaceAll (ph :: patTail) repl s = s := by
  induction s with
  | nil => rfl
  | cons c rest ih =>
    have hc : ph ≠ c := fun hcc => h (hcc ▸ List.mem_cons_self c rest)
    rw [replaceAll_cons]
    have hpre : (ph :: patTail).isPrefixOf (c :: rest) = false := by
      show (ph == c && patTail.isPrefixOf rest) = false
      rw [beq_false_of_ne hc]
      rfl
    rw [if_neg (fun hcc => by rw [hpre] at hcc; exact absurd hcc.2 (by decide))]
    rw [ih (fun hm => h (List.mem_cons_of_mem c hm))]

theorem replaceAll_append_left (ph : Char) (patTail repl a b : List Char)
    (h : ph ∉ a) :
    replaceAll (ph :: patTail) repl (a ++ b) = a ++ replaceAll (ph :: patTail) repl b := by
  induction a with
  | nil => rfl
  | cons c arest ih =>
    have hc : ph ≠ c := fun hcc => h (hcc ▸ List.mem_cons_self c arest)
    rw [List.cons_append, replaceAll_cons]
    have hpre : (ph :: patTail).isPrefixOf (c :: (arest ++ b)) = false := by
      show (ph == c && patTail.isPrefixOf (arest ++ b)) = false
      rw [beq_false_of_ne hc]
      rfl
    rw [if_neg (fun hcc => by rw [hpre] at hcc; exact absurd hcc.2 (by decide))]
    rw [ih (fun hm => h (List.mem_cons_of_mem c hm))]
    rfl

theorem replaceAll_match_head (pat repl rest : List Char) (hp : pat ≠ []) :
    replaceAll pat repl (pat ++ rest) = repl ++ replaceAll pat repl rest := by
  cases pat with
  | nil => exact absurd rfl hp
  | cons a as =>
    rw [show (a :: as) ++ rest = a :: (as ++ rest) from rfl, replaceAll_cons]
    have hpre : (a :: as).isPrefixOf (a :: (as ++ rest)) = true :=
      isPrefixOf_self_append (a :: as) rest
    rw [if_pos ⟨List.cons_ne_nil a as, hpre⟩]
    congr 1
    rw [show a :: (as ++ rest) = (a :: as) ++ rest from rfl]
    rw [show ((a :: as) ++ rest).drop (a :: as).length = rest from List.drop_left (a :: as) rest]

theorem takeWhile_append_of_all (p : Char → Bool) (a : List Char) (q : Char) (b : List Char)
    (ha : ∀ c ∈ a, p c = true) (hq : p q = false) :
    (a ++ q :: b).takeWhile p = a := by
  induction a with
  | nil =>
    show (q :: b).takeWhile p = []
    rw [List.takeWhile_cons, if_neg (by rw [hq]; exact (by decide))]
  | cons c arest ih =>
    rw [List.cons_append, List.takeWhile_cons,
      if_pos (ha c (List.mem_cons_self c arest))]
    rw [ih (fun d hd => ha d (List.mem_cons_of_mem c hd))]

theorem findStringLits_no_quote (a b : List Char) (h : ('"' : Char) ∉ a) :
    findStringLits (a ++ b) = findStringLits b := by
  induction a with
  | nil => rfl
  | cons c arest ih =>
    have hc : c ≠ '"' := fun hcc => h (hcc ▸ List.mem_cons_self c arest)
    rw [List.cons_append, findStringLits_cons, if_neg hc]
    exact ih (fun hm => h (List.mem_cons_of_mem c hm))

theorem findStringLits_lit (mid after : List Char) (hmid : ('"' : Char) ∉ mid) :
    findStringLits ('"' :: (mid ++ '"' :: after))
      = ('"' :: (mid ++ ['"'])) :: findStringLits after := by
  rw [findStringLits_cons, if_pos rfl]
  have htake : (mid ++ '"' :: after).takeWhile (fun d => d ≠ '"') = mid := by
    refine takeWhile_append_of_all _ mid '"' after ?_ (by decide)
    intro c hc
    exact decide_eq_true (fun hq => hmid (hq ▸ hc))
  rw [htake]
  have hlen : mid.length < (mid ++ '"' :: after).length := by
    rw [List.length_append, List.length_cons]
    omega
  rw [if_pos hlen]
  congr 1
  have hdrop : (mid ++ '"' :: after).drop (mid.length + 1) = after := by
    rw [show mid ++ '"' :: after = (mid ++ ['"']) ++ after by simp,
      show mid.length + 1 = (mid ++ ['"']).length by simp]
    exact List.drop_left _ _
  rw [hdrop]

theorem splitWsAux_shift (w : List Char) :
    ∀ (cur l : List Char), (∀ c ∈ w, c.isWhitespace = false) →
      splitWsAux cur (w ++ l) = splitWsAux (w.reverse ++ cur) l := by
  induction w with
  | nil => intro cur l _; rfl
  | cons c wrest ih =>
    intro cur l hw
    have hc : c.isWhitespace = false := hw c (List.mem_cons_self c wrest)
    show (if c.isWhitespace then _ else splitWsAux (c :: cur) (wrest ++ l)) = _
    rw [if_neg (by rw [hc]; exact (by decide))]
    rw [ih (c :: cur) l (fun d hd => hw d (List.mem_cons_of_mem c hd))]
    rw [List.reverse_cons, List.append_assoc]
    rfl

theorem splitWs_token_sep (w rest : List Char) (hne : w ≠ [])
    (hw : ∀ c ∈ w, c.isWhitespace = false) :
    splitWs (w ++ ' ' :: rest) = w :: splitWs rest := by
  show splitWsAux [] (w ++ ' ' :: rest) = _
  rw [splitWsAux_shift w [] (' ' :: rest) hw, List.append_nil]
  have hrev : w.reverse ≠ [] := fun hc => hne (List.reverse_eq_nil_iff.mp hc)
  show (if (' ' : Char).isWhitespace then
      (if (w.reverse).isEmpty then splitWsAux [] rest else (w.reverse).reverse :: splitWsAux [] rest)
    else splitWsAux (' ' :: w.reverse) rest) = _
  rw [if_pos (by decide), if_neg (fun hc => hrev (List.isEmpty_iff.mp hc)),
    List.reverse_reverse]
  rfl

theorem splitWs_token_end (w : List Char) (hne : w ≠ [])
    (hw : ∀ c ∈ w, c.isWhitespace = false) :
    splitWs w = [w] := by
  show splitWsAux [] w = [w]
  have h2 := splitWsAux_shift w [] [] hw
  simp only [List.append_nil] at h2
  rw [h2]
  have hrev : w.reverse ≠ [] := fun hc => hne (List.reverse_eq_nil_iff.mp hc)
  show (if (w.reverse).isEmpty then [] else [(w.reverse).reverse]) = _
  rw [if_neg (fun hc => hrev (List.isEmpty_iff.mp hc)), List.reverse_reverse]

theorem trimWs_id (t : List Char) (h : ∀ c ∈ t, c.isWhitespace = false) :
    trimWs t = t := by
  have hdrop : ∀ (u : List Char), (∀ c ∈ u, c.isWhitespace = false) →
      u.dropWhile Char.isWhitespace = u := by
    intro u hu
    cases u with
    | nil => rfl
    | cons c urest =>
      rw [List.dropWhile_cons,
        if_neg (by rw [hu c (List.mem_cons_self c urest)]; exact (by decide))]
  show ((t.dropWhile Char.isWhitespace).reverse.dropWhile Char.isWhitespace).reverse = t
  rw [hdrop t h, hdrop t.reverse (fun c hc => h c (List.mem_reverse.mp hc)),
    List.reverse_reverse]

theorem alnum_not_ws (c : Char) (h : isAlnum c = true) : c.isWhitespace = false := by
  refine Bool.eq_false_iff.mpr (fun hws => ?_)
  have hd : c = ' ' ∨ c = '\t' ∨ c = '\r' ∨ c = '\n' := by
    unfold Char.isWhitespace at hws
    simp only [Bool.or_eq_true, decide_eq_true_eq] at hws
    tauto
  rcases hd with h0 | h0 | h0 | h0 <;> (subst h0; exact absurd h (by decide))

theorem alnum_ne_quote (c : Char) (h : isAlnum c = true) : c ≠ '"' := by
  intro hc
  subst hc
  exact absurd h (by decide)

theorem replaceAll_single_no_mem (c : Char) (repl s : List Char) (h : c ∉ s) :
    replaceAll [c] repl s = s :=
  replaceAll_no_head c [] repl s h

theorem foldl_pad_no_mem (cs : List Char) :
    ∀ text : List Char, (∀ c ∈ cs, c ∉ text) →
      cs.foldl (fun acc c => replaceAll [c] [' ', c, ' '] acc) text = text := by
  induction cs with
  | nil => intro text _; rfl
  | cons c cs' ih =>
    intro text h
    show cs'.foldl _ (replaceAll [c] [' ', c, ' '] text) = text
    rw [replaceAll_single_no_mem c _ text (h c (List.mem_cons_self c cs'))]
    exact ih text (fun d hd => h d (List.mem_cons_of_mem c hd))

theorem foldl_pad_single (cs : List Char) :
    ∀ (a : List Char) (sep : Char), cs.Nodup → (∀ c ∈ cs, c ∉ a) →
      (∀ c ∈ cs, c ≠ ' ') → sep ∉ a →
      cs.foldl (fun acc c => replaceAll [c] [' ', c, ' '] acc) (a ++ [sep])
        = (if sep ∈ cs then a ++ [' ', sep, ' '] else a ++ [sep]) := by
  induction cs with
  | nil =>
    intro a sep _ _ _ _
    rw [if_neg (List.not_mem_nil sep)]
    rfl
  | cons c cs' ih =>
    intro a sep hnd ha hsp hsep
    simp only [List.nodup_cons] at hnd
    show cs'.foldl _ (replaceAll [c] [' ', c, ' '] (a ++ [sep])) = _
    by_cases hc : c = sep
    · subst hc
      have hrep : replaceAll [c] [' ', c, ' '] (a ++ [c]) = a ++ [' ', c, ' '] := by
        have h2 : replaceAll [c] [' ', c, ' '] [c] = [' ', c, ' '] := by
          have h3 := replaceAll_match_head [c] [' ', c, ' '] [] (List.cons_ne_nil c [])
          simpa using h3
        rw [replaceAll_append_left c [] _ a [c] hsep, h2]
      rw [hrep]
      rw [foldl_pad_no_mem cs' _ ?hnomem]
      case hnomem =>
        intro d hd hm
        rcases List.mem_append.mp hm with hin | hin
        · exact ha d (List.mem_cons_of_mem c hd) hin
        · rcases List.mem_cons.mp hin with h0 | h0
          · exact hsp d (List.mem_cons_of_mem c hd) h0
          · rcases List.mem_cons.mp h0 with h1 | h1
            · exact hnd.1 (h1 ▸ hd)
            · rw [List.mem_singleton] at h1
              exact hsp d (List.mem_cons_of_mem c hd) h1
      rw [if_pos (List.mem_cons_self c cs')]
    · have hrep : replaceAll [c] [' ', c, ' '] (a ++ [sep]) = a ++ [sep] := by
        refine replaceAll_single_no_mem c _ _ (fun hm => ?_)
        rcases List.mem_append.mp hm with hin | hin
        · exact ha c (List.mem_cons_self c cs') hin
        · rw [List.mem_singleton] at hin
          exact hc hin
      rw [hrep]
      rw [ih a sep hnd.2 (fun d hd => ha d (List.mem_cons_of_mem c hd))
        (fun d hd => hsp d (List.mem_cons_of_mem c hd)) hsep]
      by_cases hs2 : sep ∈ cs'
      · rw [if_pos hs2, if_pos (List.mem_cons_of_mem c hs2)]
      · rw [if_neg hs2, if_neg (fun hm => ?_)]
        rcases List.mem_cons.mp hm with h0 | h0
        · exact hc h0.symm
        · exact hs2 h0

/-- C6 (amended): for a line consisting of an alphanumeric word, a
space, one double-quoted literal (quote-free contents — embedded
spaces and separators allowed), and a trailing separator glued to the
closing quote, `tokenize` protects the literal behind its placeholder
and returns it whole and verbatim as one token, the word and the
separator being unaffected by the substitution. -/
theorem tokenize_literal_guarded (w mid : List Char) (sep : Char)
    (hwne : w ≠ []) (hwa : ∀ c ∈ w, isAlnum c = true)
    (hmid : ('"' : Char) ∉ mid) (hsep : sep ∈ sepChars) :
    tokenize (String.mk (w ++ ' ' :: '"' :: (mid ++ '"' :: [sep])))
      = [String.mk w, String.mk ('"' :: (mid ++ ['"'])), String.mk [sep]] := by
  have hq_w : ('"' : Char) ∉ w := fun hm => alnum_ne_quote '"' (hwa '"' hm) rfl
  have hsepq : sep ≠ '"' := (by decide : ∀ c ∈ sepChars, c ≠ '"') sep hsep
  have hsepws : sep.isWhitespace = false :=
    (by decide : ∀ c ∈ sepChars, c.isWhitespace = false) sep hsep
  have hwws : ∀ c ∈ w, c.isWhitespace = false := fun c hc => alnum_not_ws c (hwa c hc)
  have hqa : ('"' : Char) ∉ w ++ [' '] := by
    intro hm
    rcases List.mem_append.mp hm with hin | hin
    · exact hq_w hin
    · rw [List.mem_singleton] at hin
      exact absurd hin (by decide)
  have hqsep : ('"' : Char) ∉ [sep] := by
    intro hm
    rw [List.mem_singleton] at hm
    exact hsepq hm.symm
  have hfind : findStringLits (w ++ ' ' :: '"' :: (mid ++ '"' :: [sep]))
      = ['"' :: (mid ++ ['"'])] := by
    rw [show w ++ ' ' :: '"' :: (mid ++ '"' :: [sep])
        = (w ++ [' ']) ++ ('"' :: (mid ++ '"' :: [sep])) by simp]
    rw [findStringLits_no_quote (w ++ [' ']) _ hqa]
    rw [findStringLits_lit mid [sep] hmid]
    rw [show findStringLits [sep] = [] from by rw [findStringLits_cons, if_neg hsepq]; rfl]
  have hrepl : replaceAll ('"' :: (mid ++ ['"'])) (placeholder 0)
      (w ++ ' ' :: '"' :: (mid ++ '"' :: [sep]))
      = (w ++ [' ']) ++ (placeholder 0 ++ [sep]) := by
    rw [show w ++ ' ' :: '"' :: (mid ++ '"' :: [sep])
        = (w ++ [' ']) ++ (('"' :: (mid ++ ['"'])) ++ [sep]) by simp]
    rw [replaceAll_append_left '"' (mid ++ ['"']) _ (w ++ [' ']) _ hqa]
    rw [replaceAll_match_head ('"' :: (mid ++ ['"'])) _ [sep] (List.cons_ne_nil _ _)]
    rw [replaceAll_no_head '"' (mid ++ ['"']) _ [sep] hqsep]
  have hA : ∀ c ∈ sepChars, c ∉ (w ++ [' ']) ++ placeholder 0 := by
    intro c hc hm
    rcases List.mem_append.mp hm with hin | hin
    · rcases List.mem_append.mp hin with hin2 | hin2
      · have h1 := hwa c hin2
        have h2 := (by decide : ∀ d ∈ sepChars, isAlnum d = false) c hc
        rw [h2] at h1
        exact absurd h1 (by decide)
      · rw [List.mem_singleton] at hin2
        exact (by decide : ∀ d ∈ sepChars, d ≠ ' ') c hc hin2
    · exact (by decide : ∀ d ∈ sepChars, d ∉ placeholder 0) c hc hin
  have hpad : sepChars.foldl (fun acc c => replaceAll [c] [' ', c, ' '] acc)
      ((w ++ [' ']) ++ (placeholder 0 ++ [sep]))
      = ((w ++ [' ']) ++ placeholder 0) ++ [' ', sep, ' '] := by
    rw [show (w ++ [' ']) ++ (placeholder 0 ++ [sep])
        = ((w ++ [' ']) ++ placeholder 0) ++ [sep] by simp]
    rw [foldl_pad_single sepChars ((w ++ [' ']) ++ placeholder 0) sep (by decide) hA
      (by decide) (hA sep hsep)]
    rw [if_pos hsep]
  have hsplit : splitWs (((w ++ [' ']) ++ placeholder 0) ++ [' ', sep, ' '])
      = [w, placeholder 0, [sep]] := by
    rw [show ((w ++ [' ']) ++ placeholder 0) ++ [' ', sep, ' ']
        = w ++ ' ' :: (placeholder 0 ++ ' ' :: (sep :: [' '])) by simp]
    rw [splitWs_token_sep w _ hwne hwws]
    rw [splitWs_token_sep (placeholder 0) _ (by decide) (by decide)]
    rw [show (sep :: [' '] : List Char) = [sep] ++ ' ' :: [] from rfl]
    rw [splitWs_token_sep [sep] [] (List.cons_ne_nil _ _)
      (fun c hc => by rw [List.mem_singleton] at hc; rw [hc]; exact hsepws)]
    rfl
  have hwE : (!w.isEmpty) = true := by
    cases w with
    | nil => exact absurd rfl hwne
    | cons c cs => rfl
  have htrim : (([w, placeholder 0, [sep]].map trimWs).filter (fun t => !t.isEmpty))
      = [w, placeholder 0, [sep]] := by
    simp only [List.map_cons, List.map_nil]
    rw [trimWs_id w hwws, trimWs_id (placeholder 0) (by decide),
      trimWs_id [sep] (fun c hc => by rw [List.mem_singleton] at hc; rw [hc]; exact hsepws)]
    simp only [List.filter_cons, List.filter_nil]
    rw [if_pos hwE, if_pos (by decide : (!(placeholder 0).isEmpty) = true),
      if_pos (show (!([sep].isEmpty)) = true from rfl)]
  have hwph : ¬(w = placeholder 0) := by
    intro hc
    have h1 := hwa '_' (hc ▸ (by decide : ('_' : Char) ∈ placeholder 0))
    exact absurd h1 (by decide)
  have hsepph : ¬([sep] = placeholder 0) := by
    intro hc
    have := congrArg List.length hc
    exact absurd this (show (1 : Nat) ≠ 8 by decide)
  simp only [tokenize]
  rw [hfind]
  simp only [List.enum, List.enumFrom, List.map_cons, List.map_nil, List.foldl_cons,
    List.foldl_nil]
  rw [hrepl, hpad, hsplit, htrim]
  simp only [List.map_cons, List.map_nil]
  rw [if_neg hwph, if_neg hsepph]
  simp

/-- Counterexample to C6 as stated: on the line `x"a"y` the literal
`"a"` is replaced by its placeholder inside the glued token
`xSTRING_0y` and never substituted back — the literal does not
reappear as a (single) token; and on the line `STRING_0 "a b"` the
non-literal token `STRING_0` is rewritten to `"a b"` by the
placeholder substitution, so non-literal tokens are not unaffected. -/
theorem tokenize_literal_counterexample :
    (tokenize "x\"a\"y" = ["xSTRING_0y"])
    ∧ (tokenize "STRING_0 \"a b\"" = ["\"a b\"", "\"a b\""]) := by
  constructor
  · decide
  · decide

/-- Witness for the amended C6 at the spec's own example
`print "hi there";`. -/
theorem tokenize_literal_guarded_witness :
    ("print".data ≠ ([] : List Char))
    ∧ (∀ c ∈ "print".data, isAlnum c = true)
    ∧ (('"' : Char) ∉ "hi there".data)
    ∧ (';' ∈ sepChars)
    ∧ tokenize (String.mk ("print".data ++ ' ' :: '"' :: ("hi there".data ++ '"' :: [';'])))
        = [String.mk "print".data, String.mk ('"' :: ("hi there".data ++ ['"'])),
            String.mk [';']] :=
  ⟨by decide, by decide, by decide, by decide,
    tokenize_literal_guarded "print".data "hi there".data ';' (by decide) (by decide)
      (by decide) (by decide)⟩

end Lab3
